import Mathlib

/-!
Verification development for the tanstack-ai streaming core and adapters.

The development shallowly embeds, in Lean:
  * a best-effort JSON parser model (stream/json-parser.ts, PartialJSONParser);
  * the tool-call accumulator and execution engine (tools/tool-calls.ts,
    ToolCallManager);
  * the stream-processor state machine (stream/processor.ts, StreamProcessor);
  * the OpenAI adapter's stream-chunk translation
    (ai-openai, processOpenAIStreamChunks);
  * the connection adapters' newline-delimited line reader
    (ai-client/src/connection-adapters.ts, readStreamLines).

JavaScript strings are modelled as Lean `String` (or `List Char` where
line-splitting arithmetic is needed), JS `Map` insertion-ordered maps as
association lists, `undefined`-able values as `Option`, thrown exceptions as
`Except` error values, and async generators as pure functions from the input
event list to the produced chunk list.
-/

namespace TanstackAI

/-! ## JSON values -/

/-- JSON value universe used by the tool layer. Numbers are modelled as
integers (the fragment of JSON numbers the claims exercise). -/
inductive JsonValue
  | jnull
  | jbool (b : Bool)
  | jnum (n : Int)
  | jstr (s : String)
  | jarr (xs : List JsonValue)
  | jobj (fields : List (String × JsonValue))

/-! ## Best-effort JSON parser (PartialJSONParser)

Modelled from the spec: `stream/json-parser.ts` is not under `src/` (only its
generated reference page is). Spec §4.1: `parse(text) -> value | undefined`;
"Must never raise; on any malformed/incomplete input it returns `undefined`
rather than throwing". The underlying best-effort parse (the partial-json
library call) is modelled as `pjLibParse`, which can fail with an explicit
error value; `PJ.parse` is the class method that catches every such failure
and converts it to `none` (JS `undefined`). -/

/-- Failure modes of the underlying best-effort parse: structurally invalid
input, or input that ends before any value can be recovered. -/
inductive PErr
  | malformed
  | incomplete
deriving DecidableEq, Repr

/-- Drop leading JSON whitespace. -/
def skipWs (cs : List Char) : List Char := cs.dropWhile (fun c => c.isWhitespace)

/-- Does `pre` occur at the start of `cs`? (used for literal keywords). -/
def headMatches (pre cs : List Char) : Bool :=
  cs.take pre.length = pre

/-- Parse a literal keyword such as `null`/`true`/`false`; a proper prefix of
the keyword at the end of input counts as incomplete. -/
def parseLit (lit : List Char) (v : JsonValue) (cs : List Char) :
    Except PErr (JsonValue × List Char) :=
  if headMatches lit cs then .ok (v, cs.drop lit.length)
  else if headMatches cs lit then .error .incomplete
  else .error .malformed

/-- Unescape the character following a backslash in a JSON string. -/
def unescape (c : Char) : Char :=
  if c = 'n' then '\n'
  else if c = 't' then '\t'
  else if c = 'r' then '\r'
  else c

/-- Scan a JSON string body (opening quote already consumed). Input that ends
before the closing quote yields the characters read so far (best-effort). -/
def parseStrBody : List Char → List Char → (JsonValue × List Char)
  | acc, [] => (.jstr (String.mk acc.reverse), [])
  | acc, '"' :: rest => (.jstr (String.mk acc.reverse), rest)
  | acc, '\\' :: [] => (.jstr (String.mk acc.reverse), [])
  | acc, '\\' :: c :: rest => parseStrBody (unescape c :: acc) rest
  | acc, c :: rest => parseStrBody (c :: acc) rest

/-- Scan an integer numeral (optional minus sign then digits). -/
def parseNum (cs : List Char) : Except PErr (JsonValue × List Char) :=
  let (neg, body) := match cs with
    | '-' :: rest => (true, rest)
    | _ => (false, cs)
  let digits := body.takeWhile (fun c => c.isDigit)
  let rest := body.dropWhile (fun c => c.isDigit)
  if digits.isEmpty then
    if body.isEmpty then .error .incomplete else .error .malformed
  else
    let n : Int := digits.foldl (fun acc c => acc * 10 + (c.toNat - '0'.toNat)) (0 : Int)
    .ok (.jnum (if neg then -n else n), rest)

mutual

/-- Fuel-indexed best-effort JSON value parser. Structures that end before
their closing delimiter recover the complete portion parsed so far, as the
partial-json library does; structurally invalid input is `malformed`. -/
def parseVal : Nat → List Char → Except PErr (JsonValue × List Char)
  | 0, _ => .error .malformed
  | fuel + 1, cs =>
    match skipWs cs with
    | [] => .error .incomplete
    | 'n' :: rest => parseLit ['u', 'l', 'l'] .jnull rest
    | 't' :: rest => parseLit ['r', 'u', 'e'] (.jbool true) rest
    | 'f' :: rest => parseLit ['a', 'l', 's', 'e'] (.jbool false) rest
    | '"' :: rest => .ok (parseStrBody [] rest)
    | '[' :: rest => parseArr fuel rest []
    | '{' :: rest => parseObj fuel rest []
    | c :: rest =>
      if c = '-' ∨ c.isDigit then parseNum (c :: rest) else .error .malformed

/-- Parse the remaining elements of an array (opening bracket consumed,
`acc` holds completed elements in reverse). -/
def parseArr : Nat → List Char → List JsonValue →
    Except PErr (JsonValue × List Char)
  | 0, _, _ => .error .malformed
  | fuel + 1, cs, acc =>
    match skipWs cs with
    | [] => .ok (.jarr acc.reverse, [])
    | ']' :: rest => .ok (.jarr acc.reverse, rest)
    | cs' =>
      match parseVal fuel cs' with
      | .error .incomplete => .ok (.jarr acc.reverse, [])
      | .error .malformed => .error .malformed
      | .ok (v, rest) =>
        match skipWs rest with
        | ',' :: rest' => parseArr fuel rest' (v :: acc)
        | ']' :: rest' => .ok (.jarr (v :: acc).reverse, rest')
        | [] => .ok (.jarr (v :: acc).reverse, [])
        | _ => .error .malformed

/-- Parse the remaining members of an object (opening brace consumed,
`acc` holds completed members in reverse). -/
def parseObj : Nat → List Char → List (String × JsonValue) →
    Except PErr (JsonValue × List Char)
  | 0, _, _ => .error .malformed
  | fuel + 1, cs, acc =>
    match skipWs cs with
    | [] => .ok (.jobj acc.reverse, [])
    | '}' :: rest => .ok (.jobj acc.reverse, rest)
    | '"' :: rest =>
      match parseStrBody [] rest with
      | (.jstr key, rest') =>
        match skipWs rest' with
        | ':' :: rest'' =>
          match parseVal fuel rest'' with
          | .error .incomplete => .ok (.jobj acc.reverse, [])
          | .error .malformed => .error .malformed
          | .ok (v, rest''') =>
            match skipWs rest''' with
            | ',' :: r => parseObj fuel r ((key, v) :: acc)
            | '}' :: r => .ok (.jobj ((key, v) :: acc).reverse, r)
            | [] => .ok (.jobj ((key, v) :: acc).reverse, [])
            | _ => .error .malformed
        | [] => .ok (.jobj acc.reverse, [])
        | _ => .error .malformed
      | _ => .error .malformed
    | _ => .error .malformed

end

/-- The underlying best-effort parse call (models the partial-json library
entry point): parse one JSON value and require only whitespace after it.
Failures are explicit error values, modelling thrown exceptions. -/
def pjLibParse (s : String) : Except PErr JsonValue :=
  match parseVal (2 * s.length + 2) s.toList with
  | .ok (v, rest) => if skipWs rest = [] then .ok v else .error .malformed
  | .error e => .error e

namespace PJ

/-- Modelled from the spec: `PartialJSONParser.parse` (stream/json-parser.ts,
not under src/). Spec §4.1: must never raise; on any malformed/incomplete
input it returns `undefined` (here `none`) rather than throwing. The method
invokes the best-effort library parse and catches every failure. -/
def parse (s : String) : Option JsonValue :=
  match pjLibParse s with
  | .ok v => some v
  | .error _ => none

end PJ

/-! ## ToolCallManager (tools/tool-calls.ts)

Modelled from the spec: `tools/tool-calls.ts` is not under `src/` (only its
generated reference page `ToolCallManager.md` is). Spec §4.3 and the
reference page describe the accumulator and the execution generator. -/

/-- Accumulator entry (spec §3, "ToolCall (accumulator entry)"):
keyed by provider-assigned id once known; `{id, name, argumentsBuffer, index}`. -/
structure ToolCall where
  id : String
  name : String
  args : String
  index : Nat
deriving DecidableEq, Repr

/-- The payload of a `tool_call` stream chunk as consumed by
`ToolCallManager.addToolCallChunk` (reference page: `{index, toolCall:
{id, type: "function", function: {name, arguments}}}`). -/
structure TCMChunk where
  index : Nat
  tcId : String
  tcName : String
  tcArgs : String
deriving DecidableEq, Repr

/-- Modelled from the spec: `ToolCallManager.addToolCallChunk` (spec §4.3):
on first sight of a given call id, register `{index, name}`; append the
`arguments` fragment to that id's buffer regardless of which index arrives. -/
def addToolCallChunk (acc : List ToolCall) (c : TCMChunk) : List ToolCall :=
  if acc.any (fun e => e.id = c.tcId) then
    acc.map (fun e => if e.id = c.tcId then { e with args := e.args ++ c.tcArgs } else e)
  else
    acc ++ [⟨c.tcId, c.tcName, c.tcArgs, c.index⟩]

/-- Modelled from the spec: `ToolCallManager.getToolCalls` (spec §4.3):
returns only entries with both a non-empty id and name. -/
def getToolCalls (acc : List ToolCall) : List ToolCall :=
  acc.filter (fun e => e.id ≠ "" ∧ e.name ≠ "")

/-- Modelled from the spec: `ToolCallManager.clear` (spec §4.3): resets the
accumulator for the next loop iteration. -/
def tcmClear : List ToolCall := []

/-- Tool contract (spec §6): `{name, needsApproval?, execute?(parsedInput),
outputValidator?}`. An executor that throws or rejects is modelled by an
`Except.error`; the output validator returns its error, if any. -/
structure MTool where
  name : String
  needsApproval : Bool
  execute : Option (JsonValue → Except String JsonValue)
  validateOutput : Option (JsonValue → Except String Unit)

/-- Outcome of one tool call's execution pipeline: either the executor's
validated output, or a synthesized error payload. -/
inductive ToolOutcome
  | success (out : JsonValue)
  | failure (errorText : String)

/-- Modelled from the spec: the per-call pipeline of
`ToolCallManager.executeTools` (spec §4.3, §7): parse the fully accumulated
arguments string (a ParseError is recovered locally); invoke the executor
(an exception becomes an error tool-result); validate the declared output
contract (a validation failure gets the same treatment). Every branch
produces data; no failure escapes the pipeline. -/
def runToolCall (tools : List MTool) (parseArgs : String → Except String JsonValue)
    (tc : ToolCall) : ToolOutcome :=
  match parseArgs tc.args with
  | .error m => .failure ("Failed to parse tool arguments: " ++ m)
  | .ok input =>
    match tools.find? (fun t => t.name = tc.name) with
    | none => .failure ("Tool not found: " ++ tc.name)
    | some t =>
      match t.execute with
      | none => .failure ("Tool has no execute function: " ++ tc.name)
      | some ex =>
        match ex input with
        | .error m => .failure m
        | .ok out =>
          match t.validateOutput with
          | none => .success out
          | some v =>
            match v out with
            | .error m => .failure ("Output validation failed: " ++ m)
            | .ok _ => .success out

/-- A `tool_result` stream chunk yielded by `executeTools` for one call. -/
structure ToolResultChunk where
  toolCallId : String
  output : Option JsonValue
  errorText : Option String

/-- A tool-role conversation message returned by `executeTools` for one call. -/
structure ToolMessage where
  role : String
  toolCallId : String
  output : Option JsonValue
  errorText : Option String

/-- The `tool_result` chunk synthesized for one call. -/
def resultChunkOf (tools : List MTool) (parseArgs : String → Except String JsonValue)
    (tc : ToolCall) : ToolResultChunk :=
  match runToolCall tools parseArgs tc with
  | .success out => ⟨tc.id, some out, none⟩
  | .failure m => ⟨tc.id, none, some m⟩

/-- The tool-role message synthesized for one call. -/
def resultMessageOf (tools : List MTool) (parseArgs : String → Except String JsonValue)
    (tc : ToolCall) : ToolMessage :=
  match runToolCall tools parseArgs tc with
  | .success out => ⟨"tool", tc.id, some out, none⟩
  | .failure m => ⟨"tool", tc.id, none, some m⟩

/-- Modelled from the spec: the `tool_result` chunks yielded by
`ToolCallManager.executeTools` when the executors complete in the order
given by `perm` (a permutation of the valid calls' positions; spec §4.3
allows concurrent execution, so a chunk is yielded as each call completes). -/
def executeToolsChunks (tools : List MTool)
    (parseArgs : String → Except String JsonValue) (acc : List ToolCall)
    (perm : List Nat) : List ToolResultChunk :=
  let calls := getToolCalls acc
  perm.filterMap (fun i => (calls.get? i).map (resultChunkOf tools parseArgs))

/-- Modelled from the spec: the array of tool-role conversation messages
returned by `ToolCallManager.executeTools` (spec §4.3): each completed
call's result is stored in the slot of the call's original position, and the
array is read out in original call order, regardless of the completion
order. -/
def executeToolsMessages (tools : List MTool)
    (parseArgs : String → Except String JsonValue) (acc : List ToolCall) :
    List ToolMessage :=
  let calls := getToolCalls acc
  (List.range calls.length).filterMap
    (fun i => (calls.get? i).map (resultMessageOf tools parseArgs))

/-! ## StreamProcessor (stream/processor.ts)

Modelled from the spec: `stream/processor.ts` is not under `src/` (only its
generated reference page is). Spec §3 (data model, ToolCallState machine),
§4.5 (public operations, completion detection), §5 (ordering, approval
parking) and §7 (failure semantics) describe the state machine embedded
here. Executor invocations and produced `tool_result` chunks are recorded
as explicit trace events. Wall-clock message timestamps are abstracted to a
constant, and message ids are drawn from a deterministic counter. -/

/-- ToolCallState (spec §3): the per-tool-call lifecycle states. -/
inductive TCState
  | awaitingInput
  | inputStreaming
  | inputComplete
  | approvalRequested
  | executing
  | outputAvailable
  | outputError
  | cancelled
deriving DecidableEq, Repr

/-- Position of a state along the machine
`awaiting-input → input-streaming → input-complete →
 {approval-requested → executing | cancelled} | executing →
 {output-available | output-error}`; forward transitions never decrease it. -/
def TCState.rank : TCState → Nat
  | .awaitingInput => 0
  | .inputStreaming => 1
  | .inputComplete => 2
  | .approvalRequested => 3
  | .executing => 4
  | .outputAvailable => 5
  | .outputError => 5
  | .cancelled => 5

/-- The terminal states of the machine (spec §3). -/
def TCState.isTerminal : TCState → Bool
  | .outputAvailable => true
  | .outputError => true
  | .cancelled => true
  | _ => false

/-- ApprovalRequest (spec §3): `{id, approved: boolean | undefined}`;
`none` means pending, and once set the decision is immutable. -/
structure Approval where
  id : String
  approved : Option Bool
deriving DecidableEq, Repr

/-- ToolCallPart (spec §3): `{id, name, arguments, input?, state, approval?,
output?, errorText?}`. -/
structure ToolCallPart where
  id : String
  name : String
  args : String
  input : Option JsonValue
  state : TCState
  approval : Option Approval
  output : Option String
  errorText : Option String

/-- ToolResultPart (spec §3): `{toolCallId, output, state, errorText?}`. -/
structure ToolResultPart where
  toolCallId : String
  output : String
  isError : Bool

/-- Message roles used by the processor. -/
inductive Role
  | user
  | assistant
deriving DecidableEq, Repr

/-- MessagePart (spec §3): tagged variant. -/
inductive MessagePart
  | text (content : String)
  | thinking (content : String)
  | toolCall (p : ToolCallPart)
  | toolResult (r : ToolResultPart)

/-- UIMessage (spec §3): `{id, role, parts, createdAt}`. -/
structure UIMessage where
  id : String
  role : Role
  parts : List MessagePart
  createdAt : Nat

/-- Tool metadata the processor needs for approval gating (spec §6). -/
structure SPTool where
  name : String
  needsApproval : Bool
deriving DecidableEq, Repr

/-- Chunk vocabulary consumed by `processChunk` (spec §3, StreamChunk),
restricted to the fields the state machine reads. -/
inductive Chunk
  | content (delta : String)
  | thinking (delta : String)
  | toolCall (id name frag : String) (index : Nat)
  | toolInputAvailable (toolCallId toolName : String) (input : JsonValue)
  | approvalRequested (toolCallId toolName : String) (input : JsonValue)
      (approvalId : String)
  | toolResult (toolCallId content : String)
  | done
  | error (message : String)

/-- Public operations on a StreamProcessor (spec §4.5), plus an explicit
`executeStep` operation modelling the processor running a tool's executor
(post-approval execution and client-tool auto-execution); its argument
carries the executor's result, with a thrown executor modelled as `.error`. -/
inductive Op
  | processChunk (c : Chunk)
  | addUserMessage (content : String)
  | startAssistantMessage
  | addToolResult (toolCallId output : String) (error : Option String)
  | addToolApprovalResponse (approvalId : String) (approved : Bool)
  | executeStep (toolCallId : String) (result : Except String String)
  | finalizeStream

/-- Observable trace events: an executor invocation, and a produced
`tool_result` chunk. -/
inductive Event
  | executorInvoked (toolCallId : String)
  | toolResultChunk (toolCallId : String)
deriving DecidableEq, Repr

/-- Processor state: the owned message array, the deterministic message-id
counter, the index of the assistant message currently being streamed, and
the id of the tool call currently receiving argument fragments. -/
structure ProcState where
  messages : List UIMessage
  msgCounter : Nat
  currentIdx : Option Nat
  activeToolId : Option String

/-- The fresh-processor state. -/
def initState : ProcState := ⟨[], 0, none, none⟩

/-- Does the named tool require approval? -/
def gatedTool (tools : List SPTool) (name : String) : Bool :=
  match tools.find? (fun t => t.name = name) with
  | some t => t.needsApproval
  | none => false

/-- Project a message part to its tool-call part, if it is one. -/
def toolPart? : MessagePart → Option ToolCallPart
  | .toolCall p => some p
  | _ => none

/-- The tool-call parts of one message, in order. -/
def partsOfMsg (m : UIMessage) : List ToolCallPart :=
  m.parts.filterMap toolPart?

/-- All tool-call parts of the conversation, in message-then-part order. -/
def partsOf (msgs : List UIMessage) : List ToolCallPart :=
  (msgs.map partsOfMsg).flatten

/-- Is a tool-call part with this id present? -/
def hasPart (msgs : List UIMessage) (tid : String) : Bool :=
  (partsOf msgs).any (fun p => p.id = tid)

/-- Apply a per-part transition to every tool-call part of the conversation
(the transition itself guards on id and current state). -/
def mapToolParts (f : ToolCallPart → ToolCallPart) (msgs : List UIMessage) :
    List UIMessage :=
  msgs.map (fun m =>
    { m with parts := m.parts.map (fun pp =>
        match pp with
        | .toolCall p => .toolCall (f p)
        | other => other) })

/-- Replace the parts of the `k`-th message. -/
def updateMessageAt : Nat → (List MessagePart → List MessagePart) →
    List UIMessage → List UIMessage
  | _, _, [] => []
  | 0, f, m :: ms => { m with parts := f m.parts } :: ms
  | k + 1, f, m :: ms => m :: updateMessageAt k f ms

/-- Append a content delta: merge into a trailing TextPart, else start a new
TextPart (spec §8: a type switch always starts a new part). -/
def pushText (delta : String) (parts : List MessagePart) : List MessagePart :=
  match parts.getLast? with
  | some (.text s) => parts.dropLast ++ [.text (s ++ delta)]
  | _ => parts ++ [.text delta]

/-- Append a thinking delta, analogously to `pushText`. -/
def pushThinking (delta : String) (parts : List MessagePart) : List MessagePart :=
  match parts.getLast? with
  | some (.thinking s) => parts.dropLast ++ [.thinking (s ++ delta)]
  | _ => parts ++ [.thinking delta]

/-- Completion detection (spec §4.5): close an argument-streaming tool call,
populating the UI-facing `input` preview with the best-effort parse of the
accumulated arguments (never used for execution). -/
def finalizePart (p : ToolCallPart) : ToolCallPart :=
  if p.state = .awaitingInput ∨ p.state = .inputStreaming then
    { p with state := .inputComplete, input := PJ.parse p.args }
  else p

/-- Close only the tool call with the given id (completion detection cases
(a) and (b): a different index starts, or text content arrives). -/
def finalizeIfId (tid : String) (p : ToolCallPart) : ToolCallPart :=
  if p.id = tid then finalizePart p else p

/-- Begin a new assistant message if none is currently streaming. -/
def ensureAssistant (st : ProcState) : ProcState :=
  match st.currentIdx with
  | some _ => st
  | none =>
    { st with
      messages := st.messages ++
        [⟨"msg-" ++ toString st.msgCounter, .assistant, [], 0⟩]
      msgCounter := st.msgCounter + 1
      currentIdx := some st.messages.length }

/-- Per-part transition for an arriving `tool_call` fragment: while the part
is still accepting input, append the fragment to the argument buffer and
enter `input-streaming` once a non-empty fragment has arrived. -/
def appendFragment (tid frag : String) (p : ToolCallPart) : ToolCallPart :=
  if p.id = tid ∧ (p.state = .awaitingInput ∨ p.state = .inputStreaming) then
    { p with
      args := p.args ++ frag
      state := if frag = "" then p.state else .inputStreaming }
  else p

/-- Per-part transition for a `tool-input-available` chunk: the arguments
are complete and the parsed input is attached. -/
def inputAvailableF (tid : String) (v : JsonValue) (p : ToolCallPart) :
    ToolCallPart :=
  if p.id = tid ∧ (p.state = .awaitingInput ∨ p.state = .inputStreaming) then
    { p with state := .inputComplete, input := some v }
  else p

/-- Per-part transition for an `approval-requested` chunk: park the call in
`approval-requested` with a pending ApprovalRequest (only the first request
for a part installs an approval). -/
def approvalRequestF (tid : String) (v : JsonValue) (aid : String)
    (p : ToolCallPart) : ToolCallPart :=
  if p.id = tid ∧ p.approval = none ∧
      (p.state = .awaitingInput ∨ p.state = .inputStreaming ∨
        p.state = .inputComplete) then
    { p with
      state := .approvalRequested
      approval := some ⟨aid, none⟩
      input := some v }
  else p

/-- Per-part transition for an upstream `tool_result` chunk: a completed or
executing call becomes `output-available`. -/
def toolResultF (tid content : String) (p : ToolCallPart) : ToolCallPart :=
  if p.id = tid ∧ (p.state = .inputComplete ∨ p.state = .executing) then
    { p with state := .outputAvailable, output := some content }
  else p

/-- Per-part transition for `addToolResult` (spec §4.5): the matching part
becomes `output-available` or `output-error`. -/
def addToolResultF (tid out : String) (err : Option String)
    (p : ToolCallPart) : ToolCallPart :=
  if p.id = tid ∧ (p.state = .inputComplete ∨ p.state = .executing) then
    match err with
    | none => { p with state := .outputAvailable, output := some out }
    | some e => { p with state := .outputError, errorText := some e }
  else p

/-- Per-part transition for `addToolApprovalResponse` (spec §4.5): a pending
request is resolved; approval grants `executing`, denial is terminal
`cancelled`; once set, the decision is immutable (re-responding is a no-op). -/
def approvalResponseF (aid : String) (b : Bool) (p : ToolCallPart) :
    ToolCallPart :=
  match p.approval, p.state with
  | some a, .approvalRequested =>
    if a.id = aid ∧ a.approved = none then
      { p with
        approval := some ⟨aid, some b⟩
        state := if b then .executing else .cancelled }
    else p
  | _, _ => p

/-- Is this part ready for the processor to run its executor? A gated tool
must be in `executing` (reached only through an approval); an ungated call
may be run straight from `input-complete` (spec §4.3, §4.5). -/
def executableP (tools : List SPTool) (tid : String) (p : ToolCallPart) :
    Bool :=
  p.id = tid ∧
    (p.state = .executing ∨
      (p.state = .inputComplete ∧ gatedTool tools p.name = false))

/-- Per-part transition for `executeStep`: an executable part receives the
executor's result. -/
def executeStepF (tools : List SPTool) (tid : String)
    (result : Except String String) (p : ToolCallPart) : ToolCallPart :=
  if executableP tools tid p then
    match result with
    | .ok o => { p with state := .outputAvailable, output := some o }
    | .error e => { p with state := .outputError, errorText := some e }
  else p

/-- Create a fresh tool-call part for a first `tool_call` fragment. -/
def newToolPart (tid name frag : String) : ToolCallPart :=
  ⟨tid, name, frag, none,
    (if frag = "" then .awaitingInput else .inputStreaming), none, none, none⟩

/-- Append a part to the currently streaming assistant message. -/
def pushPartToCurrent (st : ProcState) (part : MessagePart) : ProcState :=
  match st.currentIdx with
  | some k =>
    { st with messages := updateMessageAt k (fun ps => ps ++ [part]) st.messages }
  | none => st

/-- Process one chunk (spec §4.5 `processChunk`): the single
state-transition entrypoint. -/
def processChunkOp (st : ProcState) (c : Chunk) : ProcState :=
  match c with
  | .content delta =>
    let st1 := ensureAssistant st
    let st2 :=
      match st1.activeToolId with
      | some act =>
        { st1 with
          messages := mapToolParts (finalizeIfId act) st1.messages
          activeToolId := none }
      | none => st1
    match st2.currentIdx with
    | some k =>
      { st2 with messages := updateMessageAt k (pushText delta) st2.messages }
    | none => st2
  | .thinking delta =>
    let st1 := ensureAssistant st
    let st2 :=
      match st1.activeToolId with
      | some act =>
        { st1 with
          messages := mapToolParts (finalizeIfId act) st1.messages
          activeToolId := none }
      | none => st1
    match st2.currentIdx with
    | some k =>
      { st2 with messages := updateMessageAt k (pushThinking delta) st2.messages }
    | none => st2
  | .toolCall tid name frag _ =>
    let st1 := ensureAssistant st
    let st2 :=
      match st1.activeToolId with
      | some act =>
        if act = tid then st1
        else
          { st1 with messages := mapToolParts (finalizeIfId act) st1.messages }
      | none => st1
    let st3 :=
      if hasPart st2.messages tid then
        { st2 with messages := mapToolParts (appendFragment tid frag) st2.messages }
      else pushPartToCurrent st2 (.toolCall (newToolPart tid name frag))
    { st3 with activeToolId := some tid }
  | .toolInputAvailable tid name v =>
    let st1 := ensureAssistant st
    if hasPart st1.messages tid then
      { st1 with messages := mapToolParts (inputAvailableF tid v) st1.messages }
    else
      pushPartToCurrent st1
        (.toolCall ⟨tid, name, "", some v, .inputComplete, none, none, none⟩)
  | .approvalRequested tid name v aid =>
    let st1 := ensureAssistant st
    if hasPart st1.messages tid then
      { st1 with messages := mapToolParts (approvalRequestF tid v aid) st1.messages }
    else
      pushPartToCurrent st1
        (.toolCall ⟨tid, name, "", some v, .approvalRequested,
          some ⟨aid, none⟩, none, none⟩)
  | .toolResult tid content =>
    let st1 := { st with messages := mapToolParts (toolResultF tid content) st.messages }
    if hasPart st.messages tid then
      pushPartToCurrent st1 (.toolResult ⟨tid, content, false⟩)
    else st1
  | .done =>
    { st with
      messages := mapToolParts finalizePart st.messages
      activeToolId := none
      currentIdx := none }
  | .error _ =>
    { st with
      messages := mapToolParts finalizePart st.messages
      activeToolId := none
      currentIdx := none }

/-- One public operation against the processor, returning the new state and
the trace events the operation produced. -/
def stepOp (tools : List SPTool) (st : ProcState) (op : Op) :
    ProcState × List Event :=
  match op with
  | .processChunk c => (processChunkOp st c, [])
  | .addUserMessage content =>
    ({ st with
        messages := st.messages ++
          [⟨"msg-" ++ toString st.msgCounter, .user, [.text content], 0⟩]
        msgCounter := st.msgCounter + 1 }, [])
  | .startAssistantMessage =>
    ({ st with
        messages := st.messages ++
          [⟨"msg-" ++ toString st.msgCounter, .assistant, [], 0⟩]
        msgCounter := st.msgCounter + 1
        currentIdx := some st.messages.length
        activeToolId := none }, [])
  | .addToolResult tid out err =>
    if (partsOf st.messages).any
        (fun p => p.id = tid ∧ (p.state = .inputComplete ∨ p.state = .executing)) then
      (pushPartToCurrent
        { st with messages := mapToolParts (addToolResultF tid out err) st.messages }
        (.toolResult ⟨tid, out, err.isSome⟩), [])
    else (st, [])
  | .addToolApprovalResponse aid b =>
    ({ st with messages := mapToolParts (approvalResponseF aid b) st.messages }, [])
  | .executeStep tid result =>
    if (partsOf st.messages).any (executableP tools tid) then
      ({ st with messages := mapToolParts (executeStepF tools tid result) st.messages },
        [.executorInvoked tid, .toolResultChunk tid])
    else (st, [])
  | .finalizeStream =>
    ({ st with
      messages := mapToolParts finalizePart st.messages
      activeToolId := none
      currentIdx := none }, [])

/-- Run a sequence of public operations from a given processor state,
collecting the trace events in order. -/
def runOpsFrom (tools : List SPTool) (st : ProcState) :
    List Op → ProcState × List Event
  | [] => (st, [])
  | op :: rest =>
    let r := stepOp tools st op
    let r2 := runOpsFrom tools r.fst rest
    (r2.fst, r.snd ++ r2.snd)

/-- Run a sequence of public operations against a fresh processor,
collecting the trace events in order. -/
def runOps (tools : List SPTool) (ops : List Op) : ProcState × List Event :=
  runOpsFrom tools initState ops

/-- Recording format (spec §6): an ordered list of
`{chunk, relativeTimestampMs}` entries. -/
abbrev ChunkRecording : Type := List (Chunk × Nat)

/-- Modelled from the spec: `StreamProcessor.replay` (spec §4.5): feed the
recorded chunk sequence through a fresh processor and return its
`getMessages()` snapshot. -/
def replayMessages (tools : List SPTool) (rec : ChunkRecording) :
    List UIMessage :=
  (runOps tools (rec.map (fun e => Op.processChunk e.fst))).fst.messages

/-! ## OpenAI adapter stream translation (ai-openai, part of `chatStream`)

Embedding of `OpenAI.processOpenAIStreamChunks` and its tool-call metadata
handling. Parsed provider events are modelled as `RawEvent` records carrying
exactly the fields the code reads; `JSON.stringify` of an already-parsed
`arguments` object is modelled by carrying the stringified text; `Date.now()`
is the parameter `now`; `this.generateId()` is the parameter `genId` applied
to a per-stream counter. A provider stream that throws after yielding some
events is modelled by the event list followed by `some` exception info. -/

/-- JS truthiness of an optional string (absent and empty are falsy). -/
def truthyS : Option String → Bool
  | some s => s ≠ ""
  | none => false

/-- JS `a || b` on strings (empty string is falsy). -/
def jsOrS (a b : String) : String := if a = "" then b else a

/-- JS `a || b` where `a` is an optional string. -/
def jsOrOS (a : Option String) (b : String) : String := jsOrS (a.getD "") b

/-- JS `a || b` on numbers (0 is falsy). -/
def jsOrN (a b : Nat) : Nat := if a = 0 then b else a

/-- The `arguments` field of a streamed function-call delta: either already a
string, or an object whose `JSON.stringify` rendering is carried. -/
inductive RawArgs
  | strVal (s : String)
  | objVal (stringified : String)
deriving DecidableEq, Repr

/-- The `function` property of a streamed tool-call delta. -/
structure RawFn where
  name : Option String
  arguments : Option RawArgs
deriving DecidableEq, Repr

/-- One entry of `delta.tool_calls`. -/
structure RawToolCallDelta where
  id : Option String
  index : Option Nat
  fn : Option RawFn
deriving DecidableEq, Repr

/-- Token usage as found on provider payloads. -/
structure RawUsage where
  input_tokens : Option Nat
  output_tokens : Option Nat
  prompt_tokens : Option Nat
  completion_tokens : Option Nat
  total_tokens : Option Nat
deriving DecidableEq, Repr

/-- The `response` object carried by Responses API events. -/
structure RawResponse where
  id : Option String
  model : Option String
  usage : Option RawUsage
deriving DecidableEq, Repr

/-- One entry of an output item's `content` array. -/
structure RawItemContent where
  ctype : String
  text : Option String
deriving DecidableEq, Repr

/-- An output item (`chunk.item` or an element of `chunk.output`). -/
structure RawItem where
  itype : String
  call_id : Option String
  name : Option String
  argumentsStringified : Option String
  status : Option String
  content : Option (List RawItemContent)
deriving DecidableEq, Repr

/-- `chunk.delta` of a `response.output_text.delta` event: an array of
strings, or a plain string (the code's fallback). -/
inductive RawDelta
  | strs (xs : List String)
  | str (s : String)
deriving DecidableEq, Repr

/-- `choices[i].delta` of a Chat Completions chunk. -/
structure RawChoiceDelta where
  content : Option String
  tool_calls : Option (List RawToolCallDelta)
deriving DecidableEq, Repr

/-- One element of `chunk.choices`. -/
structure RawChoice where
  delta : Option RawChoiceDelta
  finish_reason : Option String
deriving DecidableEq, Repr

/-- One parsed provider stream event, with exactly the fields the code reads. -/
structure RawEvent where
  etype : Option String
  id : Option String
  model : Option String
  response : Option RawResponse
  delta : Option RawDelta
  item : Option RawItem
  output : Option (List RawItem)
  choices : Option (List RawChoice)
  usage : Option RawUsage
deriving DecidableEq, Repr

/-- The metadata the adapter registers per unique tool-call id:
`{index, name}` assigned on first sighting. -/
structure OAIMeta where
  index : Nat
  name : String
deriving DecidableEq, Repr

/-- Mutable state of `processOpenAIStreamChunks`: accumulated text content,
the next self-assigned tool-call index, the insertion-ordered
`toolCallMetadata` map, the preserved response id/model, and the number of
`generateId()` calls made so far. -/
structure OAIState where
  accumulatedContent : String
  nextIndex : Nat
  metadata : List (String × OAIMeta)
  responseId : Option String
  model : Option String
  idCounter : Nat
deriving DecidableEq, Repr

/-- The initial adapter state. -/
def initOAIState : OAIState := ⟨"", 0, [], none, none, 0⟩

/-- The slice of `ChatCompletionOptions` the translation reads. -/
structure OAIOptions where
  model : String
deriving DecidableEq, Repr

/-- The StreamChunk vocabulary the adapter emits. -/
inductive OutChunk
  | content (id model : String) (timestamp : Nat) (delta accumulated : String)
  | toolCall (id model : String) (timestamp : Nat)
      (tcId tcName tcArgs : String) (index : Nat)
  | done (id model : String) (timestamp : Nat) (finishReason : String)
      (usage : Option (Nat × Nat × Nat))
  | error (id model : String) (timestamp : Nat) (message : String)
      (code : Option String)
deriving DecidableEq, Repr

/-- Is this chunk an `error` chunk? -/
def OutChunk.isErr : OutChunk → Bool
  | .error _ _ _ _ _ => true
  | _ => false

/-- The exception a provider stream can throw while being consumed. -/
structure ErrInfo where
  message : String
  code : Option String
deriving DecidableEq, Repr

/-- Delta accumulator: the `delta` variable built up per event. -/
structure DeltaAcc where
  content : Option String
  tool_calls : Option (List RawToolCallDelta)
deriving DecidableEq, Repr

/-- The per-event branch analysis of `processOpenAIStreamChunks`: dispatch on
Responses API events, the legacy output-array format, or Chat Completions
`choices`, producing the content/tool-call delta, the finish reason, and the
updated preserved response metadata. -/
def computeDelta (st : OAIState) (ev : RawEvent) :
    DeltaAcc × Option String × OAIState :=
  if truthyS ev.etype then
    let eventType := ev.etype.getD ""
    let st :=
      match ev.response with
      | some r => { st with responseId := r.id, model := r.model }
      | none => st
    let d0 : DeltaAcc := ⟨none, none⟩
    let d1 :=
      if eventType = "response.output_text.delta" then
        match ev.delta with
        | some (.strs xs) =>
          let textDelta := String.join xs
          if textDelta ≠ "" then { d0 with content := some textDelta } else d0
        | some (.str s) =>
          if s ≠ "" then { d0 with content := some s } else d0
        | none => d0
      else d0
    let r2 : DeltaAcc × Option String :=
      if eventType = "response.output_item.added" then
        match ev.item with
        | some item =>
          if item.itype = "function_call" then
            let tcs : List RawToolCallDelta :=
              [⟨item.call_id, none,
                some ⟨item.name,
                  some (.strVal (item.argumentsStringified.getD "\x7b\x7d"))⟩⟩]
            ({ d1 with tool_calls := some tcs }, none)
          else if item.itype = "message" then
            let d2 :=
              match item.content with
              | some parts =>
                match parts.find? (fun c => c.ctype = "output_text") with
                | some tc =>
                  match tc.text with
                  | some t =>
                    if t ≠ "" then
                      if t.length > st.accumulatedContent.length ∨
                          st.accumulatedContent = "" then
                        { d1 with content := some t }
                      else
                        let deltaText := t.drop st.accumulatedContent.length
                        if deltaText ≠ "" then { d1 with content := some deltaText }
                        else d1
                    else d1
                  | none => d1
                | none => d1
              | none => d1
            let fin :=
              if truthyS item.status ∧ item.status.getD "" ≠ "in_progress" then
                item.status
              else none
            (d2, fin)
          else (d1, none)
        | none => (d1, none)
      else (d1, none)
    let fin2 := if eventType = "response.done" then some "stop" else r2.snd
    (r2.fst, fin2, st)
  else
    match ev.output with
    | some items =>
      let messageItem := items.find? (fun it => it.itype = "message")
      let functionCallItems := items.filter (fun it => it.itype = "function_call")
      let d1 : DeltaAcc :=
        match messageItem with
        | some mi =>
          match mi.content with
          | some parts =>
            match parts.find? (fun c => c.ctype = "output_text") with
            | some tc =>
              match tc.text with
              | some t => if t ≠ "" then ⟨some t, none⟩ else ⟨none, none⟩
              | none => ⟨none, none⟩
            | none => ⟨none, none⟩
          | none => ⟨none, none⟩
        | none => ⟨none, none⟩
      let d2 :=
        if functionCallItems.length > 0 then
          { d1 with tool_calls := some (functionCallItems.map (fun fc =>
              ⟨fc.call_id, none,
                some ⟨fc.name,
                  some (.strVal (fc.argumentsStringified.getD "\x7b\x7d"))⟩⟩)) }
        else d1
      let fin :=
        match messageItem with
        | some mi => if truthyS mi.status then mi.status else none
        | none => none
      (d2, fin, st)
    | none =>
      match ev.choices with
      | some chs =>
        let c0 := chs.head?
        let d : DeltaAcc :=
          match c0 with
          | some ch =>
            match ch.delta with
            | some cd => ⟨cd.content, cd.tool_calls⟩
            | none => ⟨none, none⟩
          | none => ⟨none, none⟩
        (d, c0.bind (fun ch => ch.finish_reason), st)
      | none => (⟨none, none⟩, none, st)

/-- Compute the chunk envelope id: `responseId || chunk.id || generateId()`;
the generator counter advances only when `generateId()` is actually called. -/
def envId (genId : Nat → String) (st : OAIState) (evId : Option String) :
    String × OAIState :=
  if truthyS st.responseId then (st.responseId.getD "", st)
  else if truthyS evId then (evId.getD "", st)
  else (genId st.idCounter, { st with idCounter := st.idCounter + 1 })

/-- Compute the chunk envelope model:
`model || chunk.model || options.model || "gpt-4o"`. -/
def envModel (opts : OAIOptions) (st : OAIState) (evModel : Option String) :
    String :=
  jsOrOS st.model (jsOrOS evModel (jsOrS opts.model "gpt-4o"))

/-- Handle one entry of `delta.tool_calls` (the id/index resolution at the
heart of the adapter): an entry carrying an id registers `{index, name}` in
`toolCallMetadata` on first sighting and is emitted under its own id; an
entry without an id is resolved positionally through the metadata table,
falling back to a synthesized id when the position is unknown. -/
def handleOneToolCall (opts : OAIOptions) (genId : Nat → String) (now : Nat)
    (evId evModel : Option String) (st : OAIState) (tc : RawToolCallDelta) :
    OAIState × OutChunk :=
  if truthyS tc.id then
    let tid := tc.id.getD ""
    let tname := jsOrOS (tc.fn.bind (fun f => f.name)) ""
    let targs :=
      match tc.fn with
      | some f =>
        match f.arguments with
        | some (.strVal s) => s
        | some (.objVal j) => j
        | none => "\x7b\x7d"
      | none => "\x7b\x7d"
    let st' :=
      if (st.metadata.find? (fun e => e.fst = tid)).isSome then st
      else
        { st with
          metadata := st.metadata ++ [(tid, ⟨st.nextIndex, tname⟩)]
          nextIndex := st.nextIndex + 1 }
    let meta := (((st'.metadata.find? (fun e => e.fst = tid)).map
      (fun e => e.snd))).getD ⟨0, ""⟩
    let r := envId genId st' evId
    (r.snd, .toolCall r.fst (envModel opts r.snd evModel) now tid tname targs
      meta.index)
  else
    let openAIIndex := (tc.index).getD 0
    match st.metadata.get? openAIIndex with
    | some entry =>
      let targs :=
        match tc.fn.bind (fun f => f.arguments) with
        | some (.strVal s) => s
        | some (.objVal j) => j
        | none => ""
      let r := envId genId st evId
      (r.snd, .toolCall r.fst (envModel opts r.snd evModel) now entry.fst
        entry.snd.name targs entry.snd.index)
    | none =>
      let r := envId genId st evId
      (r.snd, .toolCall r.fst (envModel opts r.snd evModel) now
        ("call_" ++ toString now) "" "" openAIIndex)

/-- Handle all entries of `delta.tool_calls` in order. -/
def handleToolCalls (opts : OAIOptions) (genId : Nat → String) (now : Nat)
    (evId evModel : Option String) (st : OAIState) :
    List RawToolCallDelta → OAIState × List OutChunk
  | [] => (st, [])
  | tc :: rest =>
    let r := handleOneToolCall opts genId now evId evModel st tc
    let r2 := handleToolCalls opts genId now evId evModel r.fst rest
    (r2.fst, r.snd :: r2.snd)

/-- Process one provider event: branch analysis, then emit the content
chunk, the tool-call chunks, and the done chunk, in the order the code
yields them. -/
def processEvent (opts : OAIOptions) (genId : Nat → String) (now : Nat)
    (st : OAIState) (ev : RawEvent) : OAIState × List OutChunk :=
  let r0 := computeDelta st ev
  let d := r0.fst
  let fin := r0.snd.fst
  let st1 := r0.snd.snd
  let r1 : OAIState × List OutChunk :=
    match d.content with
    | some delta =>
      if delta ≠ "" then
        let st' := { st1 with
          accumulatedContent := st1.accumulatedContent ++ delta }
        let e := envId genId st' ev.id
        (e.snd, [OutChunk.content e.fst (envModel opts e.snd ev.model) now delta
          e.snd.accumulatedContent])
      else (st1, [])
    | none => (st1, [])
  let r2 : OAIState × List OutChunk :=
    match d.tool_calls with
    | some tcs =>
      let h := handleToolCalls opts genId now ev.id ev.model r1.fst tcs
      (h.fst, r1.snd ++ h.snd)
    | none => r1
  if truthyS fin ∧ fin.getD "" ≠ "in_progress" then
    let usage :=
      match ev.response.bind (fun r => r.usage) with
      | some u => some u
      | none => ev.usage
    let mapped := usage.map (fun u =>
      (jsOrN (u.input_tokens.getD 0) (u.prompt_tokens.getD 0),
       jsOrN (u.output_tokens.getD 0) (u.completion_tokens.getD 0),
       u.total_tokens.getD 0))
    let e := envId genId r2.fst ev.id
    (e.snd, r2.snd ++
      [OutChunk.done e.fst (envModel opts e.snd ev.model) now (fin.getD "") mapped])
  else r2

/-- Fold the event translation over the events the provider stream yields. -/
def processOAIEvents (opts : OAIOptions) (genId : Nat → String) (now : Nat)
    (st : OAIState) : List RawEvent → OAIState × List OutChunk
  | [] => (st, [])
  | ev :: rest =>
    let r := processEvent opts genId now st ev
    let r2 := processOAIEvents opts genId now r.fst rest
    (r2.fst, r.snd ++ r2.snd)

/-- The terminal error chunk synthesized by the catch handler. -/
def mkErrorChunk (opts : OAIOptions) (genId : Nat → String) (now : Nat)
    (st : OAIState) (e : ErrInfo) : OutChunk :=
  .error (genId st.idCounter) (jsOrS opts.model "gpt-3.5-turbo") now
    (jsOrS e.message "Unknown error occurred") e.code

/-- Embedding of `OpenAI.processOpenAIStreamChunks`: translate the events
the provider stream yields before terminating; if the stream terminates by
throwing (`exn = some e`), the catch handler appends a single error chunk
and the generator ends normally. -/
def processOpenAIStreamChunks (opts : OAIOptions) (genId : Nat → String)
    (now : Nat) (events : List RawEvent) (exn : Option ErrInfo) :
    List OutChunk :=
  let r := processOAIEvents opts genId now initOAIState events
  match exn with
  | some e => r.snd ++ [mkErrorChunk opts genId now r.fst e]
  | none => r.snd

/-! ## Connection adapter line reader (ai-client/src/connection-adapters.ts)

Embedding of `readStreamLines` and of the per-line chunk extraction of
`fetchServerSentEvents` and `fetchHttpStream`. The byte stream is modelled
after text decoding, as a list of character-list segments (the streaming
`TextDecoder` makes byte-level splits equivalent to character-level splits);
the abort-signal early exit is not modelled. `JSON.parse` with its catch is
abstracted as an arbitrary `Option`-valued parse. -/

/-- JS `!line.trim()`: the line is empty or all whitespace. -/
def isBlankLine (l : List Char) : Bool := l.all (fun c => c.isWhitespace)

/-- `String.prototype.split('\n')` on a character list: always returns at
least one piece; pieces contain no newline. -/
def splitNl : List Char → List (List Char)
  | [] => [[]]
  | c :: cs =>
    let ps := splitNl cs
    if c = '\n' then [] :: ps
    else (c :: ps.headI) :: ps.tail

/-- Prepend a prefix onto the first piece of a split (used to describe how
`splitNl` acts on concatenations). -/
def consHead (pre : List Char) : List (List Char) → List (List Char)
  | [] => []
  | h :: t => (pre ++ h) :: t

/-- One loop iteration of `readStreamLines`: append the decoded segment to
the buffer, split on newlines, keep the last incomplete piece as the new
buffer, and yield the complete non-blank lines. -/
def processSegment (buffer seg : List Char) : List (List Char) × List Char :=
  let parts := splitNl (buffer ++ seg)
  (parts.dropLast.filter (fun l => !isBlankLine l), parts.getLastD [])

/-- The read loop of `readStreamLines` with an explicit carried buffer; after
the final read, a non-blank remaining buffer is yielded as a last line. -/
def readGo : List (List Char) → List Char → List (List Char)
  | [], buffer => if isBlankLine buffer then [] else [buffer]
  | seg :: rest, buffer =>
    let r := processSegment buffer seg
    r.fst ++ readGo rest r.snd

/-- Embedding of `readStreamLines`: the lines yielded for a given
segmentation of the stream into `read()` results. -/
def readStreamLines (segs : List (List Char)) : List (List Char) :=
  readGo segs []

/-- The lines of a complete stream content, independent of segmentation:
every complete non-blank line, plus a non-blank unterminated last line. -/
def linesOfContent (s : List Char) : List (List Char) :=
  let parts := splitNl s
  parts.dropLast.filter (fun l => !isBlankLine l) ++
    (if isBlankLine (parts.getLastD []) then [] else [parts.getLastD []])

/-- The SSE payload of a line: strip a leading `data: ` marker. -/
def ssePayload (line : List Char) : List Char :=
  if line.take 6 = "data: ".toList then line.drop 6 else line

/-- The chunk sequence produced by `fetchServerSentEvents` from the line
sequence: strip the SSE marker, skip `[DONE]`, parse each payload, and skip
lines that fail to parse. -/
def fetchServerSentEventsChunks {α : Type} (parse : List Char → Option α)
    (segs : List (List Char)) : List α :=
  (readStreamLines segs).filterMap (fun line =>
    let d := ssePayload line
    if d = "[DONE]".toList then none else parse d)

/-- The chunk sequence produced by `fetchHttpStream` from the line sequence:
parse each line, skipping lines that fail to parse. -/
def fetchHttpStreamChunks {α : Type} (parse : List Char → Option α)
    (segs : List (List Char)) : List α :=
  (readStreamLines segs).filterMap parse

/-! ## Auxiliary predicates used by the verification statements -/

/-- The message part at message index `i`, part index `j`. -/
def partAt (msgs : List UIMessage) (i j : Nat) : Option MessagePart :=
  (msgs.get? i).bind (fun m => m.parts.get? j)

/-- A per-part transition respects the ToolCallState machine: it never
lowers the state's rank and leaves a part in a terminal state untouched. -/
def MonoF (f : ToolCallPart → ToolCallPart) : Prop :=
  ∀ p, p.state.rank ≤ (f p).state.rank ∧ (p.state.isTerminal = true → f p = p)

/-- An approved-for-execution decision is recorded on the part. -/
def approvedTrue (p : ToolCallPart) : Prop :=
  ∃ aid, p.approval = some ⟨aid, some true⟩

/-- A denial decision is recorded on the part. -/
def deniedOf (p : ToolCallPart) : Prop :=
  ∃ aid, p.approval = some ⟨aid, some false⟩

/-- Well-formedness of the adapter's tool-call metadata table: the
self-assigned index of each entry equals its position in the table, and the
next index to assign is the table size. Holds for the initial state and is
preserved by the translation. -/
def MetaWF (st : OAIState) : Prop :=
  st.nextIndex = st.metadata.length ∧
    ∀ k e, st.metadata.get? k = some e → e.snd.index = k

/-- The spec's tool-failure taxonomy (spec §7) for one accumulated call:
ParseError, missing tool or executor, ToolExecutionError (the executor
throws or rejects), or OutputValidationError. -/
def Fault (tools : List MTool) (parseArgs : String → Except String JsonValue)
    (tc : ToolCall) : Prop :=
  (∃ m, parseArgs tc.args = .error m) ∨
  tools.find? (fun t => t.name = tc.name) = none ∨
  (∃ t, tools.find? (fun u => u.name = tc.name) = some t ∧ t.execute = none) ∨
  (∃ t ex input m, tools.find? (fun u => u.name = tc.name) = some t ∧
    t.execute = some ex ∧ parseArgs tc.args = .ok input ∧ ex input = .error m) ∨
  (∃ t ex input out v m, tools.find? (fun u => u.name = tc.name) = some t ∧
    t.execute = some ex ∧ parseArgs tc.args = .ok input ∧ ex input = .ok out ∧
    t.validateOutput = some v ∧ v out = .error m)

/-- Is the outcome an error tool-result? -/
def ToolOutcome.isFailure : ToolOutcome → Bool
  | .failure _ => true
  | .success _ => false

/-- Trace invariant tying the recorded events to the part states; it is
established for the fresh processor and preserved by every public
operation, and yields the approval-gating guarantees. -/
structure GateInv (tools : List SPTool) (msgs : List UIMessage)
    (events : List Event) : Prop where
  gatedExecuting : ∀ p ∈ partsOf msgs, gatedTool tools p.name = true →
    p.state = .executing → approvedTrue p
  gatedEvents : ∀ p ∈ partsOf msgs, gatedTool tools p.name = true →
    Event.executorInvoked p.id ∈ events → approvedTrue p
  eventsHavePart : ∀ tid, Event.executorInvoked tid ∈ events ∨
      Event.toolResultChunk tid ∈ events →
    ∃ p ∈ partsOf msgs, p.id = tid ∧
      (p.state = .outputAvailable ∨ p.state = .outputError)
  denied : ∀ p ∈ partsOf msgs, deniedOf p →
    p.state = .cancelled ∧ Event.executorInvoked p.id ∉ events ∧
      Event.toolResultChunk p.id ∉ events
  nodup : ((partsOf msgs).map (fun p => p.id)).Nodup

/-- Conditions on a per-part transition under which `GateInv` is preserved
by a `mapToolParts` update that emits no events. -/
def GateF (f : ToolCallPart → ToolCallPart) : Prop :=
  (∀ p, (f p).id = p.id ∧ (f p).name = p.name) ∧
  (∀ p, approvedTrue p → approvedTrue (f p)) ∧
  (∀ p, (f p).state = .executing → approvedTrue (f p) ∨ p.state = .executing) ∧
  (∀ p, p.state = .outputAvailable ∨ p.state = .outputError → f p = p) ∧
  (∀ p, p.state = .cancelled → f p = p) ∧
  (∀ p, deniedOf (f p) →
    deniedOf p ∨ ((f p).state = .cancelled ∧ p.state = .approvalRequested))

/-! # Theorems -/

/-! ## Line reader lemmas -/

theorem splitNl_ne_nil (l : List Char) : splitNl l ≠ [] := by
  cases l with
  | nil => simp [splitNl]
  | cons c cs =>
    simp only [splitNl]
    split <;> simp

theorem splitNl_no_newline : ∀ (l : List Char), ∀ p ∈ splitNl l, '\n' ∉ p := by
  intro l
  induction l with
  | nil =>
    intro p hp
    simp [splitNl] at hp
    simp [hp]
  | cons c cs ih =>
    intro p hp
    simp only [splitNl] at hp
    by_cases hc : c = '\n'
    · rw [if_pos hc] at hp
      rcases List.mem_cons.mp hp with h | h
      · simp [h]
      · exact ih p h
    · rw [if_neg hc] at hp
      cases hcs : splitNl cs with
      | nil => exact absurd hcs (splitNl_ne_nil cs)
      | cons q t =>
        rw [hcs] at hp
        rcases List.mem_cons.mp hp with h | h
        · subst h
          intro hmem
          rcases List.mem_cons.mp hmem with h' | h'
          · exact hc h'.symm
          · exact ih q (hcs ▸ List.mem_cons_self q t) h'
        · exact ih p (hcs ▸ List.mem_cons_of_mem q h)

theorem splitNl_of_no_newline : ∀ (z : List Char), '\n' ∉ z → splitNl z = [z] := by
  intro z
  induction z with
  | nil => intro _; rfl
  | cons c cs ih =>
    intro h
    have hc : ¬ c = '\n' := fun e => h (by simp [e])
    have hcs : '\n' ∉ cs := fun m => h (List.mem_cons_of_mem _ m)
    simp only [splitNl, ih hcs, if_neg hc]
    rfl

theorem getLastD_mem {α : Type} :
    ∀ (L : List α) (d : α), L ≠ [] → L.getLastD d ∈ L := by
  intro L
  induction L with
  | nil => intro d h; exact absurd rfl h
  | cons a t ih =>
    intro d _
    rw [List.getLastD_cons]
    cases t with
    | nil => simp [List.getLastD]
    | cons b u => exact List.mem_cons_of_mem a (ih a (by simp))

theorem dropLast_append_cons {α : Type} (l₁ : List α) (a : α) (l₂ : List α) :
    (l₁ ++ a :: l₂).dropLast = l₁ ++ (a :: l₂).dropLast := by
  induction l₁ with
  | nil => rfl
  | cons x xs ih =>
    cases xs with
    | nil => simp [List.dropLast_cons₂]
    | cons y ys => simpa [List.dropLast_cons₂] using ih

theorem getLastD_append_cons {α : Type} (l₁ : List α) (a : α) (l₂ : List α) :
    ∀ d, (l₁ ++ a :: l₂).getLastD d = (a :: l₂).getLastD d := by
  induction l₁ with
  | nil => intro d; rfl
  | cons x xs ih =>
    intro d
    rw [List.cons_append, List.getLastD_cons]
    cases xs with
    | nil => rw [List.nil_append, List.getLastD_cons, List.getLastD_cons]
    | cons y ys => exact ih x

theorem splitNl_append (a b : List Char) :
    splitNl (a ++ b) =
      (splitNl a).dropLast ++ consHead ((splitNl a).getLastD []) (splitNl b) := by
  induction a with
  | nil =>
    cases hb : splitNl b with
    | nil => exact absurd hb (splitNl_ne_nil b)
    | cons h t =>
      rw [List.nil_append, hb]
      simp [splitNl, consHead]
  | cons c cs ih =>
    by_cases hc : c = '\n'
    · subst hc
      rw [List.cons_append]
      simp only [splitNl, if_pos rfl]
      rw [ih]
      cases hcs : splitNl cs with
      | nil => exact absurd hcs (splitNl_ne_nil cs)
      | cons h t =>
        simp [List.dropLast_cons₂, List.getLastD_cons]
    · rw [List.cons_append]
      simp only [splitNl, if_neg hc]
      rw [ih]
      cases hcs : splitNl cs with
      | nil => exact absurd hcs (splitNl_ne_nil cs)
      | cons p t =>
        cases hb : splitNl b with
        | nil => exact absurd hb (splitNl_ne_nil b)
        | cons q u =>
          cases t with
          | nil =>
            simp [consHead, List.getLastD_cons]
          | cons p2 t2 =>
            simp [consHead, List.getLastD_cons, List.dropLast_cons₂]

theorem readGo_eq :
    ∀ (segs : List (List Char)) (buffer : List Char), '\n' ∉ buffer →
      readGo segs buffer = linesOfContent (buffer ++ segs.flatten) := by
  intro segs
  induction segs with
  | nil =>
    intro buffer hb
    rw [List.flatten_nil, List.append_nil]
    simp only [readGo, linesOfContent]
    rw [splitNl_of_no_newline buffer hb]
    simp [List.getLastD]
  | cons seg rest ih =>
    intro buffer hb
    have hnewbuf : '\n' ∉ (splitNl (buffer ++ seg)).getLastD [] :=
      splitNl_no_newline _ _ (getLastD_mem _ _ (splitNl_ne_nil _))
    simp only [readGo, processSegment]
    rw [ih _ hnewbuf]
    cases hB : splitNl rest.flatten with
    | nil => exact absurd hB (splitNl_ne_nil rest.flatten)
    | cons q u =>
      have hflat : buffer ++ (seg :: rest).flatten = (buffer ++ seg) ++ rest.flatten := by
        simp [List.flatten_cons, List.append_assoc]
      have hsub : splitNl ((splitNl (buffer ++ seg)).getLastD [] ++ rest.flatten) =
          consHead ((splitNl (buffer ++ seg)).getLastD []) (splitNl rest.flatten) := by
        rw [splitNl_append, splitNl_of_no_newline _ hnewbuf]
        simp [List.getLastD]
      rw [hflat]
      simp only [linesOfContent]
      rw [splitNl_append (buffer ++ seg) rest.flatten, hsub, hB]
      simp only [consHead]
      rw [dropLast_append_cons, getLastD_append_cons]
      simp [List.filter_append, List.append_assoc]

/-- C10: for every byte stream and every two ways of segmenting it into
successive `read()` results, `readStreamLines` yields the same sequence of
lines (an incomplete trailing line is buffered until its newline or the end
of the stream arrives), so the chunk sequences produced by `fetchHttpStream`
and `fetchServerSentEvents` depend only on the concatenated stream content,
not on where the network splits it. -/
theorem readStreamLines_split_invariant {α : Type}
    (parse : List Char → Option α) (segs1 segs2 : List (List Char))
    (h : segs1.flatten = segs2.flatten) :
    readStreamLines segs1 = linesOfContent segs1.flatten ∧
    readStreamLines segs1 = readStreamLines segs2 ∧
    fetchHttpStreamChunks parse segs1 = fetchHttpStreamChunks parse segs2 ∧
    fetchServerSentEventsChunks parse segs1 =
      fetchServerSentEventsChunks parse segs2 := by
  have hc : ∀ segs : List (List Char),
      readStreamLines segs = linesOfContent segs.flatten := by
    intro segs
    unfold readStreamLines
    rw [readGo_eq segs [] (by simp), List.nil_append]
  have hl : readStreamLines segs1 = readStreamLines segs2 := by
    rw [hc segs1, hc segs2, h]
  exact ⟨hc segs1, hl, by simp [fetchHttpStreamChunks, hl],
    by simp [fetchServerSentEventsChunks, hl]⟩

/-- Witness for C10 at a concrete pair of segmentations of `"ab\ncd"`. -/
theorem readStreamLines_split_invariant_witness :
    ([['a'], ['b', '\n', 'c', 'd']] : List (List Char)).flatten =
      ([['a', 'b', '\n'], ['c', 'd']] : List (List Char)).flatten ∧
    readStreamLines [['a'], ['b', '\n', 'c', 'd']] =
      readStreamLines [['a', 'b', '\n'], ['c', 'd']] :=
  ⟨by decide,
    (readStreamLines_split_invariant (fun l => some l)
      [['a'], ['b', '\n', 'c', 'd']] [['a', 'b', '\n'], ['c', 'd']]
      (by decide)).2.1⟩

/-! ## OpenAI adapter error-path lemmas -/

theorem handleOneToolCall_not_err (opts : OAIOptions) (genId : Nat → String)
    (now : Nat) (evId evModel : Option String) (st : OAIState)
    (tc : RawToolCallDelta) :
    (handleOneToolCall opts genId now evId evModel st tc).snd.isErr = false := by
  simp only [handleOneToolCall]
  repeat' split
  all_goals simp [OutChunk.isErr]

theorem handleToolCalls_not_err (opts : OAIOptions) (genId : Nat → String)
    (now : Nat) (evId evModel : Option String) :
    ∀ (tcs : List RawToolCallDelta) (st : OAIState),
      ∀ c ∈ (handleToolCalls opts genId now evId evModel st tcs).snd,
        c.isErr = false := by
  intro tcs
  induction tcs with
  | nil => intro st c hc; simp [handleToolCalls] at hc
  | cons tc rest ih =>
    intro st c hc
    simp only [handleToolCalls] at hc
    rcases List.mem_cons.mp hc with h | h
    · exact h ▸ handleOneToolCall_not_err opts genId now evId evModel st tc
    · exact ih _ c h

theorem processEvent_not_err (opts : OAIOptions) (genId : Nat → String)
    (now : Nat) (st : OAIState) (ev : RawEvent) :
    ∀ c ∈ (processEvent opts genId now st ev).snd, c.isErr = false := by
  intro c hc
  simp only [processEvent] at hc
  repeat' split at hc
  all_goals
    simp only [List.mem_append, List.mem_singleton, List.mem_cons,
      List.not_mem_nil, or_false, false_or, List.nil_append] at hc
  all_goals repeat' rcases hc with hc | hc
  all_goals
    first
      | exact handleToolCalls_not_err opts genId now ev.id ev.model _ _ c hc
      | simp [OutChunk.isErr]

theorem processOAIEvents_not_err (opts : OAIOptions) (genId : Nat → String)
    (now : Nat) :
    ∀ (events : List RawEvent) (st : OAIState),
      ∀ c ∈ (processOAIEvents opts genId now st events).snd,
        c.isErr = false := by
  intro events
  induction events with
  | nil => intro st c hc; simp [processOAIEvents] at hc
  | cons ev rest ih =>
    intro st c hc
    simp only [processOAIEvents] at hc
    rcases List.mem_append.mp hc with h | h
    · exact processEvent_not_err opts genId now st ev c h
    · exact ih _ c h

/-- C9: if the underlying provider stream throws at any point while the
OpenAI adapter's `chatStream` is being consumed (here: after yielding
`events`), the exception is never propagated: the adapter emits exactly the
chunks of the normal path followed by a single terminal `error` chunk
carrying the exception's message (with the `"Unknown error occurred"`
fallback) and its code, and then the stream ends normally — no chunk
follows the error chunk, and no error chunk is ever emitted on the normal
path. -/
theorem processOpenAIStreamChunks_catches (opts : OAIOptions)
    (genId : Nat → String) (now : Nat) (events : List RawEvent) (e : ErrInfo) :
    processOpenAIStreamChunks opts genId now events (some e) =
      processOpenAIStreamChunks opts genId now events none ++
        [mkErrorChunk opts genId now
          (processOAIEvents opts genId now initOAIState events).fst e] ∧
    (processOpenAIStreamChunks opts genId now events none).all
      (fun c => !c.isErr) = true ∧
    (∃ cid, mkErrorChunk opts genId now
        (processOAIEvents opts genId now initOAIState events).fst e =
      OutChunk.error cid (jsOrS opts.model "gpt-3.5-turbo") now
        (jsOrS e.message "Unknown error occurred") e.code) := by
  refine ⟨by simp [processOpenAIStreamChunks], ?_, ⟨_, rfl⟩⟩
  rw [List.all_eq_true]
  intro c hc
  simp only [processOpenAIStreamChunks] at hc
  simpa using processOAIEvents_not_err opts genId now events initOAIState c hc

/-! ## PartialJSONParser (C6) -/

/-- C6: `PartialJSONParser.parse` returns normally for every input string —
every failure of the underlying best-effort parse is caught and converted to
`none` (JS `undefined`) rather than raised, and every success is returned
as-is. Concretely, the malformed input `"]"` and the empty input yield
`none`, and an incomplete object yields its recovered complete portion, so
callers can always render a still-streaming preview. -/
theorem pj_parse_never_raises :
    (∀ s e, pjLibParse s = .error e → PJ.parse s = none) ∧
    (∀ s v, pjLibParse s = .ok v → PJ.parse s = some v) ∧
    PJ.parse "]" = none ∧
    PJ.parse "" = none ∧
    PJ.parse "\x7b\"a\": 1, \"b\"" = some (.jobj [("a", .jnum 1)]) := by
  refine ⟨?_, ?_, rfl, rfl, rfl⟩
  · intro s e h
    simp [PJ.parse, h]
  · intro s v h
    simp [PJ.parse, h]

/-- Witness for C6: the underlying parse fails on `"]"` and the class method
converts the failure to `none`. -/
theorem pj_parse_never_raises_witness :
    pjLibParse "]" = .error .malformed ∧ PJ.parse "]" = none :=
  ⟨rfl, pj_parse_never_raises.1 "]" .malformed rfl⟩

/-! ## ToolCallManager accumulator (C5) -/

theorem join_cons (s : String) (l : List String) :
    String.join (s :: l) = s ++ String.join l := by
  apply String.ext
  simp [String.join_eq]

theorem find?_map_toolcall (idv : String) (f : ToolCall → ToolCall)
    (hf : ∀ x, (f x).id = x.id) :
    ∀ l : List ToolCall, (l.map f).find? (fun en => en.id = idv) =
      (l.find? (fun en => en.id = idv)).map f := by
  intro l
  induction l with
  | nil => rfl
  | cons x xs ih =>
    by_cases h : x.id = idv
    · rw [List.map_cons, List.find?_cons_of_pos _ (by simp [hf, h]),
        List.find?_cons_of_pos _ (by simp [h])]
      rfl
    · rw [List.map_cons, List.find?_cons_of_neg _ (by simp [hf, h]),
        List.find?_cons_of_neg _ (by simp [h]), ih]

theorem foldl_addToolCallChunk_args (idv : String) :
    ∀ (cs : List TCMChunk) (acc : List ToolCall) (e : ToolCall),
      (∀ c ∈ cs, c.tcId = idv) →
      acc.find? (fun en => en.id = idv) = some e →
      ∃ e1, (cs.foldl addToolCallChunk acc).find? (fun en => en.id = idv) =
          some e1 ∧
        e1.args = e.args ++ String.join (cs.map (fun c => c.tcArgs)) := by
  intro cs
  induction cs with
  | nil =>
    intro acc e _ he
    exact ⟨e, he, by simp [String.join]⟩
  | cons c rest ih =>
    intro acc e hid he
    have hcid : c.tcId = idv := hid c (List.mem_cons_self c rest)
    have hpe : e.id = idv := by simpa using List.find?_some he
    have hany : acc.any (fun en => en.id = c.tcId) = true := by
      rw [hcid]
      exact List.any_eq_true.mpr ⟨e, List.mem_of_find?_eq_some he, by simp [hpe]⟩
    have hf : ∀ x : ToolCall,
        ((fun en => if en.id = c.tcId then
            { en with args := en.args ++ c.tcArgs } else en) x).id = x.id := by
      intro x
      by_cases hx : x.id = c.tcId <;> simp [hx]
    have hstep : addToolCallChunk acc c =
        acc.map (fun en => if en.id = c.tcId then
          { en with args := en.args ++ c.tcArgs } else en) := by
      simp [addToolCallChunk, hany]
    have hfind : (addToolCallChunk acc c).find? (fun en => en.id = idv) =
        some { e with args := e.args ++ c.tcArgs } := by
      rw [hstep, find?_map_toolcall idv _ hf acc, he]
      simp [hpe, hcid]
    obtain ⟨e1, h1, h2⟩ :=
      ih (addToolCallChunk acc c) { e with args := e.args ++ c.tcArgs }
        (fun x hx => hid x (List.mem_cons_of_mem c hx)) hfind
    refine ⟨e1, by simpa using h1, ?_⟩
    rw [h2, List.map_cons, join_cons]
    simp [String.append_assoc]

/-- C5: for every text and every way of splitting it into N ≥ 1 `tool_call`
argument fragments sharing one call id, feeding the fragments in arrival
order to the accumulator via `addToolCallChunk` accumulates exactly the
original text as the call's arguments buffer, so parsing the fully
accumulated arguments string yields exactly the value parsed from the
original text, for every split point and every parser. -/
theorem addToolCallChunk_roundtrip (idv text : String)
    (cs : List TCMChunk) (hne : cs ≠ []) (hid : ∀ c ∈ cs, c.tcId = idv)
    (hsplit : String.join (cs.map (fun c => c.tcArgs)) = text)
    (parse : String → Option JsonValue) :
    ∃ e, (cs.foldl addToolCallChunk []).find? (fun en => en.id = idv) =
        some e ∧
      e.args = text ∧ parse e.args = parse text := by
  cases cs with
  | nil => exact absurd rfl hne
  | cons c0 rest =>
    have hc0 : c0.tcId = idv := hid c0 (List.mem_cons_self c0 rest)
    have hstep : addToolCallChunk [] c0 = [⟨c0.tcId, c0.tcName, c0.tcArgs, c0.index⟩] := by
      simp [addToolCallChunk]
    have hfind : (addToolCallChunk [] c0).find? (fun en => en.id = idv) =
        some ⟨c0.tcId, c0.tcName, c0.tcArgs, c0.index⟩ := by
      rw [hstep, List.find?_cons_of_pos _ (by simp [hc0])]
    obtain ⟨e1, h1, h2⟩ :=
      foldl_addToolCallChunk_args idv rest (addToolCallChunk [] c0)
        ⟨c0.tcId, c0.tcName, c0.tcArgs, c0.index⟩
        (fun x hx => hid x (List.mem_cons_of_mem c0 hx)) hfind
    refine ⟨e1, by simpa using h1, ?_, ?_⟩
    · rw [h2, ← hsplit, List.map_cons, join_cons]
    · rw [h2, ← hsplit, List.map_cons, join_cons]

/-- Witness for C5 at the spec's own scenario: `{"location":"SF"}` split at
`{"loc` / `ation":"SF"}` under id `c1`. -/
theorem addToolCallChunk_roundtrip_witness :
    ∃ e, (([⟨0, "c1", "get_weather", "\x7b\"loc"⟩,
          ⟨0, "c1", "", "ation\":\"SF\"\x7d"⟩] : List TCMChunk).foldl
        addToolCallChunk []).find? (fun en => en.id = "c1") = some e ∧
      e.args = "\x7b\"location\":\"SF\"\x7d" ∧
      PJ.parse e.args = PJ.parse "\x7b\"location\":\"SF\"\x7d" :=
  addToolCallChunk_roundtrip "c1" "\x7b\"location\":\"SF\"\x7d"
    [⟨0, "c1", "get_weather", "\x7b\"loc"⟩, ⟨0, "c1", "", "ation\":\"SF\"\x7d"⟩]
    (by decide) (by decide) (by decide) PJ.parse

/-! ## ToolCallManager execution (C1, C7) -/

theorem range_filterMap_get {α β : Type} (g : α → β) :
    ∀ l : List α,
      (List.range l.length).filterMap (fun i => (l.get? i).map g) =
        l.map g := by
  intro l
  induction l with
  | nil => rfl
  | cons x xs ih =>
    rw [List.length_cons, List.range_succ_eq_map, List.filterMap_cons]
    simp only [List.get?_cons_zero, Option.map_some]
    rw [List.filterMap_map]
    have : ((fun i => ((x :: xs).get? i).map g) ∘ Nat.succ) =
        (fun i => (xs.get? i).map g) := by
      funext i
      simp
    rw [this, ih]
    rfl

theorem resultMessageOf_role (tools : List MTool)
    (parseArgs : String → Except String JsonValue) (tc : ToolCall) :
    (resultMessageOf tools parseArgs tc).role = "tool" := by
  unfold resultMessageOf
  split <;> rfl

theorem resultMessageOf_id (tools : List MTool)
    (parseArgs : String → Except String JsonValue) (tc : ToolCall) :
    (resultMessageOf tools parseArgs tc).toolCallId = tc.id := by
  unfold resultMessageOf
  split <;> rfl

/-- C1: for every accumulated set of valid tool calls, `executeTools` yields
exactly one `tool_result` chunk per valid call — whatever order `perm` the
executors complete in, the yielded chunks are a permutation of one chunk per
valid call — and ultimately returns an array of tool-role conversation
messages, exactly one per valid call, ordered by the calls' original call
order (not by completion order). -/
theorem executeTools_call_order (tools : List MTool)
    (parseArgs : String → Except String JsonValue) (acc : List ToolCall)
    (perm : List Nat)
    (hperm : perm.Perm (List.range (getToolCalls acc).length)) :
    (executeToolsChunks tools parseArgs acc perm).Perm
        ((getToolCalls acc).map (resultChunkOf tools parseArgs)) ∧
    executeToolsMessages tools parseArgs acc =
      (getToolCalls acc).map (resultMessageOf tools parseArgs) ∧
    (executeToolsMessages tools parseArgs acc).map (fun m => m.role) =
      (getToolCalls acc).map (fun _ => "tool") ∧
    (executeToolsMessages tools parseArgs acc).map (fun m => m.toolCallId) =
      (getToolCalls acc).map (fun tc => tc.id) := by
  have hmsg : executeToolsMessages tools parseArgs acc =
      (getToolCalls acc).map (resultMessageOf tools parseArgs) :=
    range_filterMap_get _ _
  refine ⟨?_, hmsg, ?_, ?_⟩
  · have h1 := hperm.filterMap
      (fun i => ((getToolCalls acc).get? i).map (resultChunkOf tools parseArgs))
    have h2 := range_filterMap_get (resultChunkOf tools parseArgs) (getToolCalls acc)
    exact (h2 ▸ h1 : _)
  · rw [hmsg, List.map_map]
    exact List.map_congr_left (fun tc _ => resultMessageOf_role tools parseArgs tc)
  · rw [hmsg, List.map_map]
    exact List.map_congr_left (fun tc _ => resultMessageOf_id tools parseArgs tc)

/-- Witness for C1: two valid calls whose executors complete out of order
(completion order `[1, 0]`) still yield one chunk per call and messages in
original call order. -/
theorem executeTools_call_order_witness :
    executeToolsMessages [] (fun _ => Except.error "no parse")
        [⟨"a", "t1", "1", 0⟩, ⟨"b", "t2", "2", 1⟩] =
      (getToolCalls [⟨"a", "t1", "1", 0⟩, ⟨"b", "t2", "2", 1⟩]).map
        (resultMessageOf [] (fun _ => Except.error "no parse")) :=
  (executeTools_call_order [] (fun _ => Except.error "no parse")
    [⟨"a", "t1", "1", 0⟩, ⟨"b", "t2", "2", 1⟩] [1, 0] (by decide)).2.1

/-- C7: during `executeTools`, every tool-related failure is converted into
data rather than an exception: if a call's accumulated arguments fail to
parse, or its tool or executor is missing, or the executor throws, or the
output contract is violated, the call's outcome is a synthesized error
tool-result; the generator still produces exactly one result per valid call
(the run continues with the remaining calls), and every fault-free call
still yields its success result. -/
theorem executeTools_failures_are_data (tools : List MTool)
    (parseArgs : String → Except String JsonValue) (acc : List ToolCall)
    (i : Nat) (tc : ToolCall) (hget : (getToolCalls acc).get? i = some tc)
    (hf : Fault tools parseArgs tc) :
    (runToolCall tools parseArgs tc).isFailure = true ∧
    (∃ m, resultChunkOf tools parseArgs tc = ⟨tc.id, none, some m⟩) ∧
    (∃ m, resultMessageOf tools parseArgs tc = ⟨"tool", tc.id, none, some m⟩) ∧
    (executeToolsMessages tools parseArgs acc).length =
      (getToolCalls acc).length ∧
    (executeToolsChunks tools parseArgs acc
        (List.range (getToolCalls acc).length)).length =
      (getToolCalls acc).length ∧
    (executeToolsMessages tools parseArgs acc).get? i =
      some (resultMessageOf tools parseArgs tc) ∧
    (∀ j u, (getToolCalls acc).get? j = some u → ¬ Fault tools parseArgs u →
      ∃ out, runToolCall tools parseArgs u = .success out ∧
        resultChunkOf tools parseArgs u = ⟨u.id, some out, none⟩) := by
  have hfail : ∃ m, runToolCall tools parseArgs tc = .failure m := by
    rcases hf with ⟨m, hm⟩ | hm | ⟨t, ht, hex⟩ | ⟨t, ex, input, m, ht, hex, hp, he⟩ |
        ⟨t, ex, input, out, v, m, ht, hex, hp, he, hv, hvo⟩
    · exact ⟨"Failed to parse tool arguments: " ++ m, by simp [runToolCall, hm]⟩
    · cases hp : parseArgs tc.args with
      | error m2 =>
        exact ⟨"Failed to parse tool arguments: " ++ m2, by simp [runToolCall, hp]⟩
      | ok input =>
        exact ⟨"Tool not found: " ++ tc.name, by simp [runToolCall, hp, hm]⟩
    · cases hp : parseArgs tc.args with
      | error m2 =>
        exact ⟨"Failed to parse tool arguments: " ++ m2, by simp [runToolCall, hp]⟩
      | ok input =>
        exact ⟨"Tool has no execute function: " ++ tc.name,
          by simp [runToolCall, hp, ht, hex]⟩
    · exact ⟨m, by simp [runToolCall, hp, ht, hex, he]⟩
    · exact ⟨"Output validation failed: " ++ m,
        by simp [runToolCall, hp, ht, hex, he, hv, hvo]⟩
  obtain ⟨m0, hm0⟩ := hfail
  have hmsg : executeToolsMessages tools parseArgs acc =
      (getToolCalls acc).map (resultMessageOf tools parseArgs) :=
    range_filterMap_get _ _
  have hchk : executeToolsChunks tools parseArgs acc
      (List.range (getToolCalls acc).length) =
      (getToolCalls acc).map (resultChunkOf tools parseArgs) :=
    range_filterMap_get _ _
  refine ⟨by simp [hm0, ToolOutcome.isFailure], ⟨m0, by simp [resultChunkOf, hm0]⟩,
    ⟨m0, by simp [resultMessageOf, hm0]⟩, by simp [hmsg], by simp [hchk],
    ?_, ?_⟩
  · rw [hmsg, List.get?_map, hget]
    rfl
  · intro j u _ hnf
    have hok : ∃ out, runToolCall tools parseArgs u = .success out := by
      cases hp : parseArgs u.args with
      | error m => exact absurd (Or.inl ⟨m, hp⟩) hnf
      | ok input =>
        cases ht : tools.find? (fun t => t.name = u.name) with
        | none => exact absurd (Or.inr (Or.inl ht)) hnf
        | some t =>
          cases hex : t.execute with
          | none => exact absurd (Or.inr (Or.inr (Or.inl ⟨t, ht, hex⟩))) hnf
          | some ex =>
            cases he : ex input with
            | error m =>
              exact absurd (Or.inr (Or.inr (Or.inr (Or.inl
                ⟨t, ex, input, m, ht, hex, hp, he⟩)))) hnf
            | ok out =>
              cases hv : t.validateOutput with
              | none => exact ⟨out, by simp [runToolCall, hp, ht, hex, he, hv]⟩
              | some v =>
                cases hvo : v out with
                | error m =>
                  exact absurd (Or.inr (Or.inr (Or.inr (Or.inr
                    ⟨t, ex, input, out, v, m, ht, hex, hp, he, hv, hvo⟩)))) hnf
                | ok u2 =>
                  exact ⟨out, by simp [runToolCall, hp, ht, hex, he, hv, hvo]⟩
    obtain ⟨out, hout⟩ := hok
    exact ⟨out, hout, by simp [resultChunkOf, hout]⟩

/-- Witness for C7: a call whose executor throws is surfaced as an error
tool-result while the run still produces one message per valid call. -/
theorem executeTools_failures_are_data_witness :
    (runToolCall [⟨"t1", false, some (fun _ => Except.error "boom"), none⟩]
      (fun _ => Except.ok JsonValue.jnull)
      ⟨"a", "t1", "42", 0⟩).isFailure = true :=
  (executeTools_failures_are_data
    [⟨"t1", false, some (fun _ => Except.error "boom"), none⟩]
    (fun _ => Except.ok JsonValue.jnull)
    [⟨"a", "t1", "42", 0⟩] 0 ⟨"a", "t1", "42", 0⟩ rfl
    (Or.inr (Or.inr (Or.inr (Or.inl
      ⟨⟨"t1", false, some (fun _ => Except.error "boom"), none⟩,
        (fun _ => Except.error "boom"), JsonValue.jnull, "boom",
        rfl, rfl, rfl, rfl⟩))))).1

/-! ## StreamProcessor replay (C3) -/

/-- C3: replay determinism — the `getMessages()` output of
`StreamProcessor.replay` on a fresh processor instance is a function of the
recorded chunk sequence alone. In particular, feeding the same recording
through `replay` twice (each run on a fresh instance) produces identical
message output, and the entries' relative timestamps (which only pace the
replay) cannot influence it. -/
theorem replay_deterministic (tools : List SPTool) (rec1 rec2 : ChunkRecording)
    (h : rec1.map Prod.fst = rec2.map Prod.fst) :
    replayMessages tools rec1 = replayMessages tools rec2 := by
  unfold replayMessages
  have hops : rec1.map (fun e => Op.processChunk e.fst) =
      rec2.map (fun e => Op.processChunk e.fst) := by
    have h1 : rec1.map (fun e => Op.processChunk e.fst) =
        (rec1.map Prod.fst).map Op.processChunk := by
      rw [List.map_map]
      rfl
    have h2 : rec2.map (fun e => Op.processChunk e.fst) =
        (rec2.map Prod.fst).map Op.processChunk := by
      rw [List.map_map]
      rfl
    rw [h1, h2, h]
  rw [hops]

/-- Witness for C3: one recording replayed against a twin with identical
chunks but different pacing timestamps yields identical messages. -/
theorem replay_deterministic_witness :
    replayMessages []
        [(Chunk.content "Hi", 0), (Chunk.content " there", 5), (Chunk.done, 9)] =
      replayMessages []
        [(Chunk.content "Hi", 100), (Chunk.content " there", 250), (Chunk.done, 400)] :=
  replay_deterministic []
    [(Chunk.content "Hi", 0), (Chunk.content " there", 5), (Chunk.done, 9)]
    [(Chunk.content "Hi", 100), (Chunk.content " there", 250), (Chunk.done, 400)]
    rfl

/-! ## ToolCallState monotonicity kit (C4) -/

theorem monoF_finalizePart : MonoF finalizePart := by
  intro p
  unfold finalizePart
  by_cases h : p.state = .awaitingInput ∨ p.state = .inputStreaming
  · rw [if_pos h]
    refine ⟨?_, ?_⟩
    · rcases h with h | h <;> simp [h, TCState.rank]
    · intro ht
      rcases h with h | h <;> simp [h, TCState.isTerminal] at ht
  · rw [if_neg h]
    exact ⟨le_refl _, fun _ => rfl⟩

theorem monoF_finalizeIfId (tid : String) : MonoF (finalizeIfId tid) := by
  intro p
  unfold finalizeIfId
  by_cases h : p.id = tid
  · rw [if_pos h]
    exact monoF_finalizePart p
  · rw [if_neg h]
    exact ⟨le_refl _, fun _ => rfl⟩

theorem monoF_appendFragment (tid frag : String) : MonoF (appendFragment tid frag) := by
  intro p
  unfold appendFragment
  by_cases h : p.id = tid ∧ (p.state = .awaitingInput ∨ p.state = .inputStreaming)
  · rw [if_pos h]
    refine ⟨?_, ?_⟩
    · by_cases hf : frag = ""
      · simp [hf]
      · rcases h.2 with h2 | h2 <;> simp [hf, h2, TCState.rank]
    · intro ht
      rcases h.2 with h2 | h2 <;> simp [h2, TCState.isTerminal] at ht
  · rw [if_neg h]
    exact ⟨le_refl _, fun _ => rfl⟩

theorem monoF_inputAvailableF (tid : String) (v : JsonValue) :
    MonoF (inputAvailableF tid v) := by
  intro p
  unfold inputAvailableF
  by_cases h : p.id = tid ∧ (p.state = .awaitingInput ∨ p.state = .inputStreaming)
  · rw [if_pos h]
    refine ⟨?_, ?_⟩
    · rcases h.2 with h2 | h2 <;> simp [h2, TCState.rank]
    · intro ht
      rcases h.2 with h2 | h2 <;> simp [h2, TCState.isTerminal] at ht
  · rw [if_neg h]
    exact ⟨le_refl _, fun _ => rfl⟩

theorem monoF_approvalRequestF (tid : String) (v : JsonValue) (aid : String) :
    MonoF (approvalRequestF tid v aid) := by
  intro p
  unfold approvalRequestF
  by_cases h : p.id = tid ∧ p.approval = none ∧
      (p.state = .awaitingInput ∨ p.state = .inputStreaming ∨
        p.state = .inputComplete)
  · rw [if_pos h]
    refine ⟨?_, ?_⟩
    · rcases h.2.2 with h2 | h2 | h2 <;> simp [h2, TCState.rank]
    · intro ht
      rcases h.2.2 with h2 | h2 | h2 <;> simp [h2, TCState.isTerminal] at ht
  · rw [if_neg h]
    exact ⟨le_refl _, fun _ => rfl⟩

theorem monoF_toolResultF (tid content : String) : MonoF (toolResultF tid content) := by
  intro p
  unfold toolResultF
  by_cases h : p.id = tid ∧ (p.state = .inputComplete ∨ p.state = .executing)
  · rw [if_pos h]
    refine ⟨?_, ?_⟩
    · rcases h.2 with h2 | h2 <;> simp [h2, TCState.rank]
    · intro ht
      rcases h.2 with h2 | h2 <;> simp [h2, TCState.isTerminal] at ht
  · rw [if_neg h]
    exact ⟨le_refl _, fun _ => rfl⟩

theorem monoF_addToolResultF (tid out : String) (err : Option String) :
    MonoF (addToolResultF tid out err) := by
  intro p
  unfold addToolResultF
  by_cases h : p.id = tid ∧ (p.state = .inputComplete ∨ p.state = .executing)
  · rw [if_pos h]
    refine ⟨?_, ?_⟩
    · cases err <;> rcases h.2 with h2 | h2 <;> simp [h2, TCState.rank]
    · intro ht
      rcases h.2 with h2 | h2 <;> simp [h2, TCState.isTerminal] at ht
  · rw [if_neg h]
    exact ⟨le_refl _, fun _ => rfl⟩

theorem monoF_approvalResponseF (aid : String) (b : Bool) :
    MonoF (approvalResponseF aid b) := by
  intro p
  cases ha : p.approval with
  | none =>
    refine ⟨?_, fun _ => ?_⟩ <;> simp [approvalResponseF, ha]
  | some a =>
    cases hs : p.state
    all_goals
      try (refine ⟨?_, fun _ => ?_⟩ <;> simp [approvalResponseF, ha, hs] <;> done)
    by_cases hcond : a.id = aid ∧ a.approved = none
    · refine ⟨?_, ?_⟩
      · cases b <;> simp [approvalResponseF, ha, hs, hcond, TCState.rank]
      · intro ht
        simp [TCState.isTerminal] at ht
    · refine ⟨?_, fun _ => ?_⟩ <;> simp [approvalResponseF, ha, hs, hcond]

theorem monoF_executeStepF (tools : List SPTool) (tid : String)
    (result : Except String String) : MonoF (executeStepF tools tid result) := by
  intro p
  unfold executeStepF
  by_cases h : executableP tools tid p = true
  · rw [if_pos h]
    have h2 : p.state = .executing ∨
        (p.state = .inputComplete ∧ gatedTool tools p.name = false) := by
      have h3 : p.id = tid ∧ (p.state = .executing ∨
          (p.state = .inputComplete ∧ gatedTool tools p.name = false)) := by
        simpa [executableP] using h
      exact h3.2
    refine ⟨?_, ?_⟩
    · cases result <;> rcases h2 with h2 | ⟨h2, _⟩ <;> simp [h2, TCState.rank]
    · intro ht
      rcases h2 with h2 | ⟨h2, _⟩ <;> simp [h2, TCState.isTerminal] at ht
  · rw [if_neg h]
    exact ⟨le_refl _, fun _ => rfl⟩

theorem monoF_id : MonoF (fun p => p) := fun _ => ⟨le_refl _, fun _ => rfl⟩

theorem monoF_comp {f g : ToolCallPart → ToolCallPart} (hf : MonoF f)
    (hg : MonoF g) : MonoF (fun p => g (f p)) := by
  intro p
  refine ⟨le_trans (hf p).1 (hg (f p)).1, fun ht => ?_⟩
  show g (f p) = p
  rw [(hf p).2 ht, (hg p).2 ht]

theorem get?_lt_length {α : Type} (l : List α) (j : Nat) (x : α)
    (h : l.get? j = some x) : j < l.length := by
  by_contra hcon
  rw [List.get?_eq_none.mpr (Nat.le_of_not_lt hcon)] at h
  exact Option.noConfusion h

theorem partAt_destruct (msgs : List UIMessage) (i j : Nat) (x : MessagePart)
    (h : partAt msgs i j = some x) :
    ∃ m, msgs.get? i = some m ∧ m.parts.get? j = some x := by
  unfold partAt at h
  cases hm : msgs.get? i with
  | none => rw [hm] at h; exact Option.noConfusion h
  | some m =>
    rw [hm] at h
    exact ⟨m, rfl, by simpa using h⟩

theorem get?_append_single {α : Type} (l : List α) (a : α) (j : Nat) (x : α)
    (h : l.get? j = some x) : (l ++ [a]).get? j = some x := by
  rw [List.get?_append (get?_lt_length l j x h)]
  exact h

theorem partAt_append_msg (msgs : List UIMessage) (m : UIMessage) (i j : Nat)
    (x : MessagePart) (h : partAt msgs i j = some x) :
    partAt (msgs ++ [m]) i j = some x := by
  obtain ⟨mm, hm, hp⟩ := partAt_destruct msgs i j x h
  unfold partAt
  rw [List.get?_append (get?_lt_length msgs i mm hm), hm]
  simpa using hp

theorem partAt_mapToolParts (f : ToolCallPart → ToolCallPart)
    (msgs : List UIMessage) (i j : Nat) (p : ToolCallPart)
    (h : partAt msgs i j = some (.toolCall p)) :
    partAt (mapToolParts f msgs) i j = some (.toolCall (f p)) := by
  obtain ⟨mm, hm, hp⟩ := partAt_destruct msgs i j _ h
  unfold partAt mapToolParts
  rw [List.get?_map, hm]
  simp only [Option.map_some', Option.some_bind]
  rw [List.get?_map, hp]
  rfl

theorem partAt_ensureAssistant (st : ProcState) (i j : Nat) (x : MessagePart)
    (h : partAt st.messages i j = some x) :
    partAt (ensureAssistant st).messages i j = some x := by
  unfold ensureAssistant
  cases hci : st.currentIdx with
  | some k => exact h
  | none => exact partAt_append_msg _ _ _ _ _ h

theorem partAt_updateMessageAt
    (g : List MessagePart → List MessagePart)
    (hg : ∀ ps j p, ps.get? j = some (MessagePart.toolCall p) →
      (g ps).get? j = some (MessagePart.toolCall p)) :
    ∀ (msgs : List UIMessage) (k i j : Nat) (p : ToolCallPart),
      partAt msgs i j = some (.toolCall p) →
      partAt (updateMessageAt k g msgs) i j = some (.toolCall p) := by
  intro msgs
  induction msgs with
  | nil =>
    intro k i j p h
    simp [partAt] at h
  | cons m ms ih =>
    intro k i j p h
    cases k with
    | zero =>
      cases i with
      | zero =>
        unfold partAt at h ⊢
        simp only [updateMessageAt, List.get?_cons_zero, Option.some_bind] at h ⊢
        exact hg m.parts j p h
      | succ i2 =>
        unfold partAt at h ⊢
        simp only [updateMessageAt, List.get?_cons_succ] at h ⊢
        exact h
    | succ k2 =>
      cases i with
      | zero =>
        unfold partAt at h ⊢
        simp only [updateMessageAt, List.get?_cons_zero, Option.some_bind] at h ⊢
        exact h
      | succ i2 =>
        have hh : partAt ms i2 j = some (.toolCall p) := by
          simpa [partAt, List.get?_cons_succ] using h
        have := ih k2 i2 j p hh
        simpa [updateMessageAt, partAt, List.get?_cons_succ] using this

theorem partAt_pushPartToCurrent (st : ProcState) (part : MessagePart)
    (i j : Nat) (p : ToolCallPart)
    (h : partAt st.messages i j = some (.toolCall p)) :
    partAt (pushPartToCurrent st part).messages i j = some (.toolCall p) := by
  unfold pushPartToCurrent
  cases hci : st.currentIdx with
  | none => exact h
  | some k =>
    exact partAt_updateMessageAt _
      (fun ps jj pp hpp => get?_append_single ps part jj _ hpp)
      st.messages k i j p h

theorem get?_pushText (d : String) (ps : List MessagePart) (j : Nat)
    (p : ToolCallPart) (h : ps.get? j = some (.toolCall p)) :
    (pushText d ps).get? j = some (.toolCall p) := by
  unfold pushText
  cases hl : ps.getLast? with
  | none =>
    rw [List.getLast?_eq_none_iff] at hl
    subst hl
    exact Option.noConfusion h
  | some last =>
    have hps : ps.dropLast ++ [last] = ps :=
      List.dropLast_append_getLast? last hl
    cases last with
    | text s =>
      have hj : j < ps.length := get?_lt_length _ _ _ h
      have hlen : ps.length = ps.dropLast.length + 1 := by
        conv_lhs => rw [← hps]
        simp
      by_cases hj2 : j < ps.dropLast.length
      · rw [List.get?_append hj2]
        conv_lhs at h => rw [← hps]
        rw [List.get?_append hj2] at h
        exact h
      · have hj3 : j = ps.dropLast.length := by omega
        conv_lhs at h => rw [← hps]
        rw [hj3, List.get?_append_right (le_refl _)] at h
        simp at h
    | thinking s => exact get?_append_single ps _ j _ h
    | toolCall q => exact get?_append_single ps _ j _ h
    | toolResult r => exact get?_append_single ps _ j _ h

theorem get?_pushThinking (d : String) (ps : List MessagePart) (j : Nat)
    (p : ToolCallPart) (h : ps.get? j = some (.toolCall p)) :
    (pushThinking d ps).get? j = some (.toolCall p) := by
  unfold pushThinking
  cases hl : ps.getLast? with
  | none =>
    rw [List.getLast?_eq_none_iff] at hl
    subst hl
    exact Option.noConfusion h
  | some last =>
    have hps : ps.dropLast ++ [last] = ps :=
      List.dropLast_append_getLast? last hl
    cases last with
    | thinking s =>
      have hj : j < ps.length := get?_lt_length _ _ _ h
      have hlen : ps.length = ps.dropLast.length + 1 := by
        conv_lhs => rw [← hps]
        simp
      by_cases hj2 : j < ps.dropLast.length
      · rw [List.get?_append hj2]
        conv_lhs at h => rw [← hps]
        rw [List.get?_append hj2] at h
        exact h
      · have hj3 : j = ps.dropLast.length := by omega
        conv_lhs at h => rw [← hps]
        rw [hj3, List.get?_append_right (le_refl _)] at h
        simp at h
    | text s => exact get?_append_single ps _ j _ h
    | toolCall q => exact get?_append_single ps _ j _ h
    | toolResult r => exact get?_append_single ps _ j _ h

theorem finish_mono (p q fp : ToolCallPart)
    (h1 : p.state.rank ≤ fp.state.rank)
    (h2 : p.state.isTerminal = true → fp = p)
    (heq : MessagePart.toolCall fp = MessagePart.toolCall q) :
    p.state.rank ≤ q.state.rank ∧
      (p.state.isTerminal = true → q.state = p.state) := by
  have hq : fp = q := by injection heq
  subst hq
  exact ⟨h1, fun ht => by rw [h2 ht]⟩

/-- C4: for every processor state, public operation and tool-call part
position, the part's state only ever moves forward along the ToolCallState
machine — no operation lowers the state's rank — and once a part is in
`output-available`, `output-error` or `cancelled` its state never changes
again. -/
theorem toolCallPart_state_monotone (tools : List SPTool) (st : ProcState)
    (op : Op) (i j : Nat) (p q : ToolCallPart)
    (h : partAt st.messages i j = some (.toolCall p))
    (h2 : partAt (stepOp tools st op).fst.messages i j = some (.toolCall q)) :
    p.state.rank ≤ q.state.rank ∧
      (p.state.isTerminal = true → q.state = p.state) := by
  cases op with
  | addUserMessage content =>
    simp only [stepOp] at h2
    have hq := partAt_append_msg st.messages
      ⟨"msg-" ++ toString st.msgCounter, .user, [.text content], 0⟩ i j _ h
    exact finish_mono p q p (le_refl _) (fun _ => rfl)
      (Option.some.inj (hq.symm.trans h2))
  | startAssistantMessage =>
    simp only [stepOp] at h2
    have hq := partAt_append_msg st.messages
      ⟨"msg-" ++ toString st.msgCounter, .assistant, [], 0⟩ i j _ h
    exact finish_mono p q p (le_refl _) (fun _ => rfl)
      (Option.some.inj (hq.symm.trans h2))
  | addToolApprovalResponse aid b =>
    simp only [stepOp] at h2
    have hq := partAt_mapToolParts (approvalResponseF aid b) st.messages i j p h
    exact finish_mono p q _ ((monoF_approvalResponseF aid b) p).1
      ((monoF_approvalResponseF aid b) p).2 (Option.some.inj (hq.symm.trans h2))
  | executeStep tid result =>
    simp only [stepOp] at h2
    by_cases hany : (partsOf st.messages).any (executableP tools tid) = true
    · rw [if_pos hany] at h2
      have hq := partAt_mapToolParts (executeStepF tools tid result)
        st.messages i j p h
      exact finish_mono p q _ ((monoF_executeStepF tools tid result) p).1
        ((monoF_executeStepF tools tid result) p).2
        (Option.some.inj (hq.symm.trans h2))
    · rw [if_neg hany] at h2
      exact finish_mono p q p (le_refl _) (fun _ => rfl)
        (Option.some.inj (h.symm.trans h2))
  | addToolResult tid out err =>
    simp only [stepOp] at h2
    by_cases hany : (partsOf st.messages).any
        (fun pp => pp.id = tid ∧ (pp.state = .inputComplete ∨ pp.state = .executing)) = true
    · rw [if_pos hany] at h2
      have hq1 := partAt_mapToolParts (addToolResultF tid out err) st.messages i j p h
      have hq := partAt_pushPartToCurrent
        { st with messages := mapToolParts (addToolResultF tid out err) st.messages }
        (.toolResult ⟨tid, out, err.isSome⟩) i j _ hq1
      exact finish_mono p q _ ((monoF_addToolResultF tid out err) p).1
        ((monoF_addToolResultF tid out err) p).2
        (Option.some.inj (hq.symm.trans h2))
    · rw [if_neg hany] at h2
      exact finish_mono p q p (le_refl _) (fun _ => rfl)
        (Option.some.inj (h.symm.trans h2))
  | finalizeStream =>
    simp only [stepOp] at h2
    have hq := partAt_mapToolParts finalizePart st.messages i j p h
    exact finish_mono p q _ (monoF_finalizePart p).1 (monoF_finalizePart p).2
      (Option.some.inj (hq.symm.trans h2))
  | processChunk c =>
    simp only [stepOp] at h2
    cases c with
    | content delta =>
      have h1 := partAt_ensureAssistant st i j _ h
      cases hact : (ensureAssistant st).activeToolId with
      | some act =>
        have h2f := partAt_mapToolParts (finalizeIfId act) _ i j p h1
        cases hcur : (ensureAssistant st).currentIdx with
        | some k =>
          have h3 := partAt_updateMessageAt (pushText delta)
            (fun ps jj pp hpp => get?_pushText delta ps jj pp hpp)
            _ k i j _ h2f
          simp only [processChunkOp, hact, hcur] at h2
          exact finish_mono p q _ ((monoF_finalizeIfId act) p).1
            ((monoF_finalizeIfId act) p).2 (Option.some.inj (h3.symm.trans h2))
        | none =>
          simp only [processChunkOp, hact, hcur] at h2
          exact finish_mono p q _ ((monoF_finalizeIfId act) p).1
            ((monoF_finalizeIfId act) p).2 (Option.some.inj (h2f.symm.trans h2))
      | none =>
        cases hcur : (ensureAssistant st).currentIdx with
        | some k =>
          have h3 := partAt_updateMessageAt (pushText delta)
            (fun ps jj pp hpp => get?_pushText delta ps jj pp hpp)
            _ k i j _ h1
          simp only [processChunkOp, hact, hcur] at h2
          exact finish_mono p q p (le_refl _) (fun _ => rfl)
            (Option.some.inj (h3.symm.trans h2))
        | none =>
          simp only [processChunkOp, hact, hcur] at h2
          exact finish_mono p q p (le_refl _) (fun _ => rfl)
            (Option.some.inj (h1.symm.trans h2))
    | thinking delta =>
      have h1 := partAt_ensureAssistant st i j _ h
      cases hact : (ensureAssistant st).activeToolId with
      | some act =>
        have h2f := partAt_mapToolParts (finalizeIfId act) _ i j p h1
        cases hcur : (ensureAssistant st).currentIdx with
        | some k =>
          have h3 := partAt_updateMessageAt (pushThinking delta)
            (fun ps jj pp hpp => get?_pushThinking delta ps jj pp hpp)
            _ k i j _ h2f
          simp only [processChunkOp, hact, hcur] at h2
          exact finish_mono p q _ ((monoF_finalizeIfId act) p).1
            ((monoF_finalizeIfId act) p).2 (Option.some.inj (h3.symm.trans h2))
        | none =>
          simp only [processChunkOp, hact, hcur] at h2
          exact finish_mono p q _ ((monoF_finalizeIfId act) p).1
            ((monoF_finalizeIfId act) p).2 (Option.some.inj (h2f.symm.trans h2))
      | none =>
        cases hcur : (ensureAssistant st).currentIdx with
        | some k =>
          have h3 := partAt_updateMessageAt (pushThinking delta)
            (fun ps jj pp hpp => get?_pushThinking delta ps jj pp hpp)
            _ k i j _ h1
          simp only [processChunkOp, hact, hcur] at h2
          exact finish_mono p q p (le_refl _) (fun _ => rfl)
            (Option.some.inj (h3.symm.trans h2))
        | none =>
          simp only [processChunkOp, hact, hcur] at h2
          exact finish_mono p q p (le_refl _) (fun _ => rfl)
            (Option.some.inj (h1.symm.trans h2))
    | toolCall tid name frag idx =>
      have h1 := partAt_ensureAssistant st i j _ h
      simp only [processChunkOp] at h2
      repeat' split at h2
      all_goals
        first
          | exact finish_mono p q _ ((monoF_appendFragment tid frag) p).1
              ((monoF_appendFragment tid frag) p).2
              (Option.some.inj
                ((partAt_mapToolParts (appendFragment tid frag) _ i j p h1).symm.trans h2))
          | exact finish_mono p q p (le_refl _) (fun _ => rfl)
              (Option.some.inj
                ((partAt_pushPartToCurrent _ _ i j _ h1).symm.trans h2))
          | exact finish_mono p q _
              ((monoF_comp (monoF_finalizeIfId _) (monoF_appendFragment tid frag)) p).1
              ((monoF_comp (monoF_finalizeIfId _) (monoF_appendFragment tid frag)) p).2
              (Option.some.inj
                ((partAt_mapToolParts (appendFragment tid frag) _ i j _
                  (partAt_mapToolParts (finalizeIfId _) _ i j p h1)).symm.trans h2))
          | exact finish_mono p q _ ((monoF_finalizeIfId _) p).1
              ((monoF_finalizeIfId _) p).2
              (Option.some.inj
                ((partAt_pushPartToCurrent _ _ i j _
                  (partAt_mapToolParts (finalizeIfId _) _ i j p h1)).symm.trans h2))
    | toolInputAvailable tid name v =>
      have h1 := partAt_ensureAssistant st i j _ h
      simp only [processChunkOp] at h2
      by_cases hhas : hasPart (ensureAssistant st).messages tid = true
      · rw [if_pos hhas] at h2
        exact finish_mono p q _ ((monoF_inputAvailableF tid v) p).1
          ((monoF_inputAvailableF tid v) p).2
          (Option.some.inj
            ((partAt_mapToolParts (inputAvailableF tid v) _ i j p h1).symm.trans h2))
      · rw [if_neg hhas] at h2
        exact finish_mono p q p (le_refl _) (fun _ => rfl)
          (Option.some.inj
            ((partAt_pushPartToCurrent _ _ i j _ h1).symm.trans h2))
    | approvalRequested tid name v aid =>
      have h1 := partAt_ensureAssistant st i j _ h
      simp only [processChunkOp] at h2
      by_cases hhas : hasPart (ensureAssistant st).messages tid = true
      · rw [if_pos hhas] at h2
        exact finish_mono p q _ ((monoF_approvalRequestF tid v aid) p).1
          ((monoF_approvalRequestF tid v aid) p).2
          (Option.some.inj
            ((partAt_mapToolParts (approvalRequestF tid v aid) _ i j p h1).symm.trans h2))
      · rw [if_neg hhas] at h2
        exact finish_mono p q p (le_refl _) (fun _ => rfl)
          (Option.some.inj
            ((partAt_pushPartToCurrent _ _ i j _ h1).symm.trans h2))
    | toolResult tid content =>
      have h1 := partAt_mapToolParts (toolResultF tid content) st.messages i j p h
      simp only [processChunkOp] at h2
      by_cases hhas : hasPart st.messages tid = true
      · rw [if_pos hhas] at h2
        exact finish_mono p q _ ((monoF_toolResultF tid content) p).1
          ((monoF_toolResultF tid content) p).2
          (Option.some.inj
            ((partAt_pushPartToCurrent _ _ i j _ h1).symm.trans h2))
      · rw [if_neg hhas] at h2
        exact finish_mono p q _ ((monoF_toolResultF tid content) p).1
          ((monoF_toolResultF tid content) p).2
          (Option.some.inj (h1.symm.trans h2))
    | done =>
      simp only [processChunkOp] at h2
      have hq := partAt_mapToolParts finalizePart st.messages i j p h
      exact finish_mono p q _ (monoF_finalizePart p).1 (monoF_finalizePart p).2
        (Option.some.inj (hq.symm.trans h2))
    | error msg =>
      simp only [processChunkOp] at h2
      have hq := partAt_mapToolParts finalizePart st.messages i j p h
      exact finish_mono p q _ (monoF_finalizePart p).1 (monoF_finalizePart p).2
        (Option.some.inj (hq.symm.trans h2))

/-- Witness for C4: processing `done` finalizes an argument-streaming call
to `input-complete`, a forward move. -/
theorem toolCallPart_state_monotone_witness :
    (⟨"c1", "t", "x", none, .inputStreaming, none, none, none⟩ :
        ToolCallPart).state.rank ≤
      (⟨"c1", "t", "x", none, .inputComplete, none, none, none⟩ :
        ToolCallPart).state.rank ∧
      ((⟨"c1", "t", "x", none, .inputStreaming, none, none, none⟩ :
          ToolCallPart).state.isTerminal = true →
        (⟨"c1", "t", "x", none, .inputComplete, none, none, none⟩ :
            ToolCallPart).state =
          (⟨"c1", "t", "x", none, .inputStreaming, none, none, none⟩ :
            ToolCallPart).state) :=
  toolCallPart_state_monotone []
    ⟨[⟨"m0", .assistant,
        [.toolCall ⟨"c1", "t", "x", none, .inputStreaming, none, none, none⟩],
        0⟩], 1, some 0, some "c1"⟩
    (.processChunk .done) 0 0
    ⟨"c1", "t", "x", none, .inputStreaming, none, none, none⟩
    ⟨"c1", "t", "x", none, .inputComplete, none, none, none⟩
    rfl rfl

/-! ## OpenAI adapter tool-call metadata (C8) -/

theorem envId_metadata (genId : Nat → String) (st : OAIState)
    (evId : Option String) :
    (envId genId st evId).snd.metadata = st.metadata ∧
    (envId genId st evId).snd.nextIndex = st.nextIndex := by
  unfold envId
  repeat' split
  all_goals simp

theorem metaWF_append (st : OAIState) (hwf : MetaWF st) (tid nm : String) :
    MetaWF { st with
      metadata := st.metadata ++ [(tid, ⟨st.nextIndex, nm⟩)]
      nextIndex := st.nextIndex + 1 } := by
  constructor
  · simp [hwf.1]
  · intro k e hk
    simp only at hk
    by_cases h : k < st.metadata.length
    · rw [List.get?_append h] at hk
      exact hwf.2 k e hk
    · have hk2 := get?_lt_length _ _ _ hk
      simp only [List.length_append, List.length_cons, List.length_nil] at hk2
      have hlen : k = st.metadata.length := by omega
      subst hlen
      rw [List.get?_concat_length] at hk
      injection hk with hk
      subst hk
      simp [hwf.1]

theorem metaWF_envId (genId : Nat → String) (st : OAIState)
    (evId : Option String) (h : MetaWF st) : MetaWF (envId genId st evId).snd := by
  constructor
  · rw [(envId_metadata genId st evId).1, (envId_metadata genId st evId).2]
    exact h.1
  · intro k e hk
    rw [(envId_metadata genId st evId).1] at hk
    exact h.2 k e hk

theorem addToolCallChunk_existing (accL : List ToolCall) (c : TCMChunk)
    (e : ToolCall) (he : accL.find? (fun en => en.id = c.tcId) = some e) :
    (addToolCallChunk accL c).find? (fun en => en.id = c.tcId) =
      some { e with args := e.args ++ c.tcArgs } := by
  have hpe : e.id = c.tcId := by simpa using List.find?_some he
  have hany : accL.any (fun en => en.id = c.tcId) = true :=
    List.any_eq_true.mpr ⟨e, List.mem_of_find?_eq_some he, by simp [hpe]⟩
  have hf : ∀ x : ToolCall,
      ((fun en => if en.id = c.tcId then
          { en with args := en.args ++ c.tcArgs } else en) x).id = x.id := by
    intro x
    by_cases hx : x.id = c.tcId <;> simp [hx]
  have hstep : addToolCallChunk accL c =
      accL.map (fun en => if en.id = c.tcId then
        { en with args := en.args ++ c.tcArgs } else en) := by
    simp [addToolCallChunk, hany]
  rw [hstep, find?_map_toolcall c.tcId _ hf accL, he]
  simp [hpe]

/-- C8: on first sight of a tool-call id, `processOpenAIStreamChunks`
registers `{index, name}` for that id in the `toolCallMetadata` lookup
table (the index being the entry's position, never reassigned afterwards);
every subsequent fragment addressed only by a provider index is resolved
through that table to the id registered on first sighting and emitted as a
`tool_call` chunk under that id and name; and feeding the emitted chunk to
`ToolCallManager.addToolCallChunk` appends the fragment to that id's
arguments buffer. -/
theorem toolCallMetadata_resolution (opts : OAIOptions) (genId : Nat → String)
    (now : Nat) (evId evModel : Option String) (st : OAIState)
    (hwf : MetaWF st) (tc : RawToolCallDelta) :
    (∀ tid, tc.id = some tid → tid ≠ "" →
      (st.metadata.find? (fun e => e.fst = tid)).isSome = false →
      (handleOneToolCall opts genId now evId evModel st tc).fst.metadata =
        st.metadata ++
          [(tid, ⟨st.metadata.length, jsOrOS (tc.fn.bind (fun f => f.name)) ""⟩)]) ∧
    (∀ tid, tc.id = some tid → tid ≠ "" →
      (st.metadata.find? (fun e => e.fst = tid)).isSome = true →
      (handleOneToolCall opts genId now evId evModel st tc).fst.metadata =
        st.metadata) ∧
    (truthyS tc.id = false →
      (handleOneToolCall opts genId now evId evModel st tc).fst.metadata =
          st.metadata ∧
      (∀ k entry, tc.index.getD 0 = k → st.metadata.get? k = some entry →
        ∃ cid mdl,
          (handleOneToolCall opts genId now evId evModel st tc).snd =
            OutChunk.toolCall cid mdl now entry.fst entry.snd.name
              (match tc.fn.bind (fun f => f.arguments) with
                | some (.strVal s0) => s0
                | some (.objVal j0) => j0
                | none => "") k)) ∧
    MetaWF (handleOneToolCall opts genId now evId evModel st tc).fst ∧
    (∀ cid mdl ts tcId tcName tcArgs k (accL : List ToolCall) (e : ToolCall),
      (handleOneToolCall opts genId now evId evModel st tc).snd =
        OutChunk.toolCall cid mdl ts tcId tcName tcArgs k →
      accL.find? (fun en => en.id = tcId) = some e →
      ∃ e1, (addToolCallChunk accL ⟨k, tcId, tcName, tcArgs⟩).find?
          (fun en => en.id = tcId) = some e1 ∧
        e1.args = e.args ++ tcArgs) := by
  have hmeta : ∀ st2 : OAIState, (envId genId st2 evId).snd.metadata = st2.metadata :=
    fun st2 => (envId_metadata genId st2 evId).1
  refine ⟨?_, ?_, ?_, ?_, ?_⟩
  · intro tid hid hne hnot
    have htr : truthyS (some tid) = true := by simp [truthyS, hne]
    simp only [handleOneToolCall, hid, Option.getD_some]
    rw [if_pos htr, if_neg (by simp [hnot])]
    rw [hmeta]
    simp [hwf.1]
  · intro tid hid hne hsome
    have htr : truthyS (some tid) = true := by simp [truthyS, hne]
    simp only [handleOneToolCall, hid, Option.getD_some]
    rw [if_pos htr, if_pos hsome]
    rw [hmeta]
  · intro hfalse
    constructor
    · simp only [handleOneToolCall]
      rw [if_neg (by simp [hfalse])]
      cases hk : st.metadata.get? (tc.index.getD 0) with
      | some entry => simp [hk, hmeta]
      | none => simp [hk, hmeta]
    · intro k entry hkk hk
      subst hkk
      have hidx := hwf.2 _ _ hk
      simp only [handleOneToolCall]
      rw [if_neg (by simp [hfalse])]
      rw [hk]
      refine ⟨(envId genId st evId).fst,
        envModel opts (envId genId st evId).snd evModel, ?_⟩
      rw [← hidx]
  · by_cases htr : truthyS tc.id = true
    · simp only [handleOneToolCall]
      rw [if_pos htr]
      by_cases hhas :
          (st.metadata.find? (fun e => e.fst = tc.id.getD "")).isSome = true
      · rw [if_pos hhas]
        exact metaWF_envId genId st evId hwf
      · rw [if_neg hhas]
        exact metaWF_envId genId _ evId
          (by
            have := metaWF_append st hwf (tc.id.getD "")
              (jsOrOS (tc.fn.bind (fun f => f.name)) "")
            simpa using this)
    · simp only [handleOneToolCall]
      rw [if_neg htr]
      cases hk : st.metadata.get? (tc.index.getD 0) with
      | some entry => exact metaWF_envId genId st evId hwf
      | none => exact metaWF_envId genId st evId hwf
  · intro cid mdl ts tcId tcName tcArgs k accL e hchunk he
    exact ⟨{ e with args := e.args ++ tcArgs },
      addToolCallChunk_existing accL ⟨k, tcId, tcName, tcArgs⟩ e he, rfl⟩

/-- Witness for C8: with `call_1` registered at position 0, an index-only
fragment with index 0 resolves through the table to `call_1` and its
registered name. -/
theorem toolCallMetadata_resolution_witness :
    ∃ cid mdl,
      (handleOneToolCall ⟨"gpt-4o"⟩ (fun n => "id-" ++ toString n) 7 none none
          ⟨"", 1, [("call_1", ⟨0, "get_weather"⟩)], none, none, 0⟩
          ⟨none, some 0, some ⟨none, some (.strVal "frag")⟩⟩).snd =
        OutChunk.toolCall cid mdl 7 "call_1" "get_weather" "frag" 0 :=
  ((toolCallMetadata_resolution ⟨"gpt-4o"⟩ (fun n => "id-" ++ toString n) 7
      none none ⟨"", 1, [("call_1", ⟨0, "get_weather"⟩)], none, none, 0⟩
      (by
        refine ⟨rfl, ?_⟩
        intro k e hk
        match k, hk with
        | 0, hk =>
          injection hk with h
          rw [← h]
        | k + 1, hk => simp at hk)
      ⟨none, some 0, some ⟨none, some (.strVal "frag")⟩⟩).2.2.1 rfl).2 0
    ("call_1", ⟨0, "get_weather"⟩) rfl rfl


/-! ## Approval gating: parts bookkeeping -/

theorem partsOf_cons (m : UIMessage) (ms : List UIMessage) :
    partsOf (m :: ms) = partsOfMsg m ++ partsOf ms := by
  simp [partsOf]

theorem partsOf_append (ms1 ms2 : List UIMessage) :
    partsOf (ms1 ++ ms2) = partsOf ms1 ++ partsOf ms2 := by
  simp [partsOf]

theorem filterMap_toolPart_map (f : ToolCallPart → ToolCallPart)
    (ps : List MessagePart) :
    (ps.map (fun pp =>
      match pp with
      | .toolCall p => MessagePart.toolCall (f p)
      | other => other)).filterMap toolPart? =
    (ps.filterMap toolPart?).map f := by
  induction ps with
  | nil => rfl
  | cons pp ps ih => cases pp <;> simp [toolPart?, ih]

theorem partsOf_mapToolParts (f : ToolCallPart → ToolCallPart) :
    ∀ msgs, partsOf (mapToolParts f msgs) = (partsOf msgs).map f := by
  intro msgs
  induction msgs with
  | nil => rfl
  | cons m ms ih =>
    have h1 : mapToolParts f (m :: ms) =
        { m with parts := m.parts.map (fun pp =>
            match pp with
            | .toolCall p => MessagePart.toolCall (f p)
            | other => other) } :: mapToolParts f ms := rfl
    rw [h1, partsOf_cons, partsOf_cons, List.map_append, ← ih]
    have h2 : partsOfMsg { m with parts := m.parts.map (fun pp =>
        match pp with
        | .toolCall p => MessagePart.toolCall (f p)
        | other => other) } = (partsOfMsg m).map f :=
      filterMap_toolPart_map f m.parts
    rw [h2]

theorem partsOf_updateMessageAt_inv (g : List MessagePart → List MessagePart)
    (hg : ∀ ps, (g ps).filterMap toolPart? = ps.filterMap toolPart?) :
    ∀ (k : Nat) (msgs : List UIMessage),
      partsOf (updateMessageAt k g msgs) = partsOf msgs := by
  intro k msgs
  induction msgs generalizing k with
  | nil => cases k <;> rfl
  | cons m ms ih =>
    cases k with
    | zero =>
      rw [show updateMessageAt 0 g (m :: ms) =
          { m with parts := g m.parts } :: ms from rfl]
      rw [partsOf_cons, partsOf_cons]
      exact congrArg (· ++ partsOf ms) (hg m.parts)
    | succ k =>
      rw [show updateMessageAt (k + 1) g (m :: ms) =
          m :: updateMessageAt k g ms from rfl]
      rw [partsOf_cons, partsOf_cons, ih k]

theorem partsOf_updateMessageAt_push (np : ToolCallPart) :
    ∀ (k : Nat) (msgs : List UIMessage),
      (partsOf (updateMessageAt k
          (fun ps => ps ++ [MessagePart.toolCall np]) msgs)).Perm
        (partsOf msgs ++ if k < msgs.length then [np] else []) := by
  intro k msgs
  induction msgs generalizing k with
  | nil =>
    cases k <;> simp [updateMessageAt, partsOf]
  | cons m ms ih =>
    cases k with
    | zero =>
      rw [show updateMessageAt 0 (fun ps => ps ++ [MessagePart.toolCall np])
          (m :: ms) = { m with parts := m.parts ++ [MessagePart.toolCall np] }
          :: ms from rfl]
      rw [partsOf_cons, partsOf_cons, if_pos (by simp)]
      have h1 : partsOfMsg { m with parts := m.parts ++ [MessagePart.toolCall np] } =
          partsOfMsg m ++ [np] := by
        show (m.parts ++ [MessagePart.toolCall np]).filterMap toolPart? = _
        simp [partsOfMsg, toolPart?]
      rw [h1, List.append_assoc, List.append_assoc]
      exact (@List.perm_append_comm _ [np] (partsOf ms)).append_left _
    | succ k =>
      rw [show updateMessageAt (k + 1) (fun ps => ps ++ [MessagePart.toolCall np])
          (m :: ms) = m :: updateMessageAt k
          (fun ps => ps ++ [MessagePart.toolCall np]) ms from rfl]
      rw [partsOf_cons, partsOf_cons]
      have h2 : (if k + 1 < (m :: ms).length then [np] else []) =
          (if k < ms.length then [np] else ([] : List ToolCallPart)) := by
        simp [Nat.succ_lt_succ_iff]
      rw [h2, List.append_assoc]
      exact (ih k).append_left _

theorem filterMap_pushText (d : String) (ps : List MessagePart) :
    (pushText d ps).filterMap toolPart? = ps.filterMap toolPart? := by
  unfold pushText
  cases hl : ps.getLast? with
  | none => simp [toolPart?]
  | some last =>
    have hps : ps.dropLast ++ [last] = ps :=
      List.dropLast_append_getLast? last hl
    cases last with
    | text s =>
      conv_rhs => rw [← hps]
      simp [toolPart?]
    | thinking s => simp [toolPart?]
    | toolCall q => simp [toolPart?]
    | toolResult r => simp [toolPart?]

theorem filterMap_pushThinking (d : String) (ps : List MessagePart) :
    (pushThinking d ps).filterMap toolPart? = ps.filterMap toolPart? := by
  unfold pushThinking
  cases hl : ps.getLast? with
  | none => simp [toolPart?]
  | some last =>
    have hps : ps.dropLast ++ [last] = ps :=
      List.dropLast_append_getLast? last hl
    cases last with
    | thinking s =>
      conv_rhs => rw [← hps]
      simp [toolPart?]
    | text s => simp [toolPart?]
    | toolCall q => simp [toolPart?]
    | toolResult r => simp [toolPart?]

theorem filterMap_push_toolResult (r : ToolResultPart) (ps : List MessagePart) :
    ((ps ++ [MessagePart.toolResult r]).filterMap toolPart?) =
      ps.filterMap toolPart? := by
  simp [toolPart?]

theorem partsOf_ensureAssistant (st : ProcState) :
    partsOf (ensureAssistant st).messages = partsOf st.messages := by
  unfold ensureAssistant
  cases st.currentIdx with
  | some k => rfl
  | none => simp [partsOf, partsOfMsg, toolPart?]

theorem partsOf_pushResultPart (st : ProcState) (r : ToolResultPart) :
    partsOf (pushPartToCurrent st (.toolResult r)).messages =
      partsOf st.messages := by
  unfold pushPartToCurrent
  cases st.currentIdx with
  | none => rfl
  | some k =>
    exact partsOf_updateMessageAt_inv _
      (fun ps => filterMap_push_toolResult r ps) k st.messages

/-! ## Approval gating: invariant transfer -/

theorem gateInv_of_perm (tools : List SPTool) (msgs msgs2 : List UIMessage)
    (events : List Event)
    (hp : (partsOf msgs2).Perm (partsOf msgs))
    (h : GateInv tools msgs events) : GateInv tools msgs2 events := by
  refine ⟨?_, ?_, ?_, ?_, ?_⟩
  · intro p hm
    exact h.gatedExecuting p (hp.mem_iff.mp hm)
  · intro p hm
    exact h.gatedEvents p (hp.mem_iff.mp hm)
  · intro tid ht
    obtain ⟨p, hm, h1, h2⟩ := h.eventsHavePart tid ht
    exact ⟨p, hp.mem_iff.mpr hm, h1, h2⟩
  · intro p hm
    exact h.denied p (hp.mem_iff.mp hm)
  · exact ((hp.map (fun p => p.id)).nodup_iff).mpr h.nodup

theorem gateInv_of_eq (tools : List SPTool) (msgs msgs2 : List UIMessage)
    (events : List Event)
    (hp : partsOf msgs2 = partsOf msgs)
    (h : GateInv tools msgs events) : GateInv tools msgs2 events :=
  gateInv_of_perm tools msgs msgs2 events (hp ▸ List.Perm.refl _) h

theorem gateInv_map (tools : List SPTool) (msgs : List UIMessage)
    (events : List Event) (f : ToolCallPart → ToolCallPart)
    (hf : GateF f) (h : GateInv tools msgs events) :
    GateInv tools (mapToolParts f msgs) events := by
  obtain ⟨hid, happ, hexec, hout, hcan, hden⟩ := hf
  have hparts := partsOf_mapToolParts f msgs
  refine ⟨?_, ?_, ?_, ?_, ?_⟩
  · intro p2 hm hg hs
    rw [hparts] at hm
    obtain ⟨p, hp, rfl⟩ := List.mem_map.mp hm
    rcases hexec p hs with hap | hping
    · exact hap
    · have hg2 : gatedTool tools p.name = true := by
        rw [← (hid p).2]; exact hg
      exact happ p (h.gatedExecuting p hp hg2 hping)
  · intro p2 hm hg hev
    rw [hparts] at hm
    obtain ⟨p, hp, rfl⟩ := List.mem_map.mp hm
    have hg2 : gatedTool tools p.name = true := by
      rw [← (hid p).2]; exact hg
    rw [(hid p).1] at hev
    exact happ p (h.gatedEvents p hp hg2 hev)
  · intro tid ht
    obtain ⟨q, hq, hq1, hq2⟩ := h.eventsHavePart tid ht
    refine ⟨q, ?_, hq1, hq2⟩
    rw [hparts]
    exact List.mem_map.mpr ⟨q, hq, hout q hq2⟩
  · intro p2 hm hdp
    rw [hparts] at hm
    obtain ⟨p, hp, rfl⟩ := List.mem_map.mp hm
    rcases hden p hdp with hd | ⟨hcs, hpar⟩
    · have h3 := h.denied p hp hd
      have h4 : f p = p := hcan p h3.1
      rw [h4]
      exact h3
    · refine ⟨hcs, ?_, ?_⟩
      · rw [(hid p).1]
        intro hev
        obtain ⟨q, hq, hq1, hq2⟩ := h.eventsHavePart p.id (Or.inl hev)
        have hqp : q = p := List.inj_on_of_nodup_map h.nodup hq hp hq1
        rw [hqp, hpar] at hq2
        simp at hq2
      · rw [(hid p).1]
        intro hev
        obtain ⟨q, hq, hq1, hq2⟩ := h.eventsHavePart p.id (Or.inr hev)
        have hqp : q = p := List.inj_on_of_nodup_map h.nodup hq hp hq1
        rw [hqp, hpar] at hq2
        simp at hq2
  · rw [hparts, List.map_map]
    have h5 : ((fun p => p.id) ∘ f) = (fun (p : ToolCallPart) => p.id) :=
      funext (fun p => (hid p).1)
    rw [h5]
    exact h.nodup

theorem gateInv_insert (tools : List SPTool) (msgs msgs2 : List UIMessage)
    (events : List Event) (np : ToolCallPart) (ext : List ToolCallPart)
    (h : GateInv tools msgs events)
    (hperm : (partsOf msgs2).Perm (partsOf msgs ++ ext))
    (hext : ext = [] ∨ ext = [np])
    (hfresh : ∀ p ∈ partsOf msgs, p.id ≠ np.id)
    (hs1 : np.state ≠ .executing)
    (hs2 : np.state ≠ .outputAvailable)
    (hs3 : np.state ≠ .outputError)
    (hd : ¬ deniedOf np) :
    GateInv tools msgs2 events := by
  have hmem : ∀ p, p ∈ partsOf msgs2 → p ∈ partsOf msgs ∨ p = np := by
    intro p hp
    rcases List.mem_append.mp (hperm.mem_iff.mp hp) with h1 | h1
    · exact Or.inl h1
    · rcases hext with he | he
      · rw [he] at h1; cases h1
      · rw [he] at h1; exact Or.inr (List.mem_singleton.mp h1)
  refine ⟨?_, ?_, ?_, ?_, ?_⟩
  · intro p hm hg hs
    rcases hmem p hm with h1 | rfl
    · exact h.gatedExecuting p h1 hg hs
    · exact absurd hs hs1
  · intro p hm hg hev
    rcases hmem p hm with h1 | rfl
    · exact h.gatedEvents p h1 hg hev
    · obtain ⟨q, hq, hq1, _⟩ := h.eventsHavePart p.id (Or.inl hev)
      exact absurd hq1 (hfresh q hq)
  · intro tid ht
    obtain ⟨q, hq, hq1, hq2⟩ := h.eventsHavePart tid ht
    exact ⟨q, hperm.mem_iff.mpr (List.mem_append_left _ hq), hq1, hq2⟩
  · intro p hm hdp
    rcases hmem p hm with h1 | rfl
    · exact h.denied p h1 hdp
    · exact absurd hdp hd
  · refine ((hperm.map (fun p => p.id)).nodup_iff).mpr ?_
    rw [List.map_append]
    rcases hext with he | he
    · rw [he]
      simpa using h.nodup
    · rw [he]
      refine List.nodup_append.mpr ⟨h.nodup, List.nodup_singleton _, ?_⟩
      intro a ha hb
      obtain ⟨p, hp, rfl⟩ := List.mem_map.mp ha
      rw [List.map_singleton, List.mem_singleton] at hb
      exact hfresh p hp hb

/-! ## Approval gating: per-part transition facts -/

theorem finalizePart_cases (p : ToolCallPart) :
    finalizePart p = p ∨
    ((p.state = .awaitingInput ∨ p.state = .inputStreaming) ∧
      finalizePart p = { p with state := .inputComplete, input := PJ.parse p.args }) := by
  unfold finalizePart
  split
  · rename_i hG
    exact Or.inr ⟨hG, rfl⟩
  · exact Or.inl rfl

theorem finalizeIfId_cases (tid : String) (p : ToolCallPart) :
    finalizeIfId tid p = p ∨
    ((p.state = .awaitingInput ∨ p.state = .inputStreaming) ∧
      finalizeIfId tid p = { p with state := .inputComplete, input := PJ.parse p.args }) := by
  unfold finalizeIfId
  split
  · exact finalizePart_cases p
  · exact Or.inl rfl

theorem appendFragment_cases (tid frag : String) (p : ToolCallPart) :
    appendFragment tid frag p = p ∨
    ((p.state = .awaitingInput ∨ p.state = .inputStreaming) ∧
      appendFragment tid frag p =
        { p with args := p.args ++ frag,
                 state := if frag = "" then p.state else .inputStreaming }) := by
  unfold appendFragment
  split
  · rename_i hG
    exact Or.inr ⟨hG.2, rfl⟩
  · exact Or.inl rfl

theorem inputAvailableF_cases (tid : String) (v : JsonValue) (p : ToolCallPart) :
    inputAvailableF tid v p = p ∨
    ((p.state = .awaitingInput ∨ p.state = .inputStreaming) ∧
      inputAvailableF tid v p = { p with state := .inputComplete, input := some v }) := by
  unfold inputAvailableF
  split
  · rename_i hG
    exact Or.inr ⟨hG.2, rfl⟩
  · exact Or.inl rfl

theorem approvalRequestF_cases (tid : String) (v : JsonValue) (aid : String)
    (p : ToolCallPart) :
    approvalRequestF tid v aid p = p ∨
    (p.approval = none ∧
      (p.state = .awaitingInput ∨ p.state = .inputStreaming ∨
        p.state = .inputComplete) ∧
      approvalRequestF tid v aid p =
        { p with state := .approvalRequested, approval := some ⟨aid, none⟩,
                 input := some v }) := by
  unfold approvalRequestF
  split
  · rename_i hG
    exact Or.inr ⟨hG.2.1, hG.2.2, rfl⟩
  · exact Or.inl rfl

theorem toolResultF_cases (tid content : String) (p : ToolCallPart) :
    toolResultF tid content p = p ∨
    ((p.state = .inputComplete ∨ p.state = .executing) ∧
      toolResultF tid content p =
        { p with state := .outputAvailable, output := some content }) := by
  unfold toolResultF
  split
  · rename_i hG
    exact Or.inr ⟨hG.2, rfl⟩
  · exact Or.inl rfl

theorem addToolResultF_cases (tid out : String) (err : Option String)
    (p : ToolCallPart) :
    addToolResultF tid out err p = p ∨
    ((p.state = .inputComplete ∨ p.state = .executing) ∧
      (addToolResultF tid out err p =
          { p with state := .outputAvailable, output := some out } ∨
        ∃ e, addToolResultF tid out err p =
          { p with state := .outputError, errorText := some e })) := by
  unfold addToolResultF
  split
  · rename_i hG
    cases err with
    | none => exact Or.inr ⟨hG.2, Or.inl rfl⟩
    | some e => exact Or.inr ⟨hG.2, Or.inr ⟨e, rfl⟩⟩
  · exact Or.inl rfl

theorem approvalResponseF_cases (aid : String) (b : Bool) (p : ToolCallPart) :
    approvalResponseF aid b p = p ∨
    (∃ a, p.approval = some a ∧ p.state = .approvalRequested ∧
      a.id = aid ∧ a.approved = none ∧
      approvalResponseF aid b p =
        { p with approval := some ⟨aid, some b⟩,
                 state := if b then .executing else .cancelled }) := by
  unfold approvalResponseF
  split
  · rename_i a heq1 heq2
    split
    · rename_i hc
      exact Or.inr ⟨a, heq1, heq2, hc.1, hc.2, rfl⟩
    · exact Or.inl rfl
  · exact Or.inl rfl

theorem executeStepF_pres (tools : List SPTool) (tid : String)
    (result : Except String String) (p : ToolCallPart) :
    (executeStepF tools tid result p).id = p.id ∧
    (executeStepF tools tid result p).name = p.name ∧
    (executeStepF tools tid result p).approval = p.approval := by
  unfold executeStepF
  split
  · split <;> exact ⟨rfl, rfl, rfl⟩
  · exact ⟨rfl, rfl, rfl⟩

theorem executeStepF_of_exec (tools : List SPTool) (tid : String)
    (result : Except String String) (p : ToolCallPart)
    (h : executableP tools tid p = true) :
    (executeStepF tools tid result p).state = .outputAvailable ∨
    (executeStepF tools tid result p).state = .outputError := by
  unfold executeStepF
  rw [if_pos h]
  cases result with
  | ok o => exact Or.inl rfl
  | error e => exact Or.inr rfl

theorem executeStepF_of_not_exec (tools : List SPTool) (tid : String)
    (result : Except String String) (p : ToolCallPart)
    (h : executableP tools tid p = false) :
    executeStepF tools tid result p = p := by
  unfold executeStepF
  rw [if_neg (by simp [h])]

theorem gateF_finalizePart : GateF finalizePart := by
  refine ⟨?_, ?_, ?_, ?_, ?_, ?_⟩
  · intro p
    rcases finalizePart_cases p with he | ⟨_, he⟩ <;> rw [he] <;> exact ⟨rfl, rfl⟩
  · intro p h
    rcases finalizePart_cases p with he | ⟨_, he⟩ <;> rw [he] <;> exact h
  · intro p h
    rcases finalizePart_cases p with he | ⟨hg, he⟩
    · rw [he] at h
      exact Or.inr h
    · rw [he] at h
      simp at h
  · intro p h
    rcases finalizePart_cases p with he | ⟨hg, he⟩
    · exact he
    · rcases h with h | h <;> rw [h] at hg <;> simp at hg
  · intro p h
    rcases finalizePart_cases p with he | ⟨hg, he⟩
    · exact he
    · rw [h] at hg
      simp at hg
  · intro p h
    rcases finalizePart_cases p with he | ⟨_, he⟩ <;> rw [he] at h <;> exact Or.inl h

theorem gateF_finalizeIfId (tid : String) : GateF (finalizeIfId tid) := by
  refine ⟨?_, ?_, ?_, ?_, ?_, ?_⟩
  · intro p
    rcases finalizeIfId_cases tid p with he | ⟨_, he⟩ <;> rw [he] <;> exact ⟨rfl, rfl⟩
  · intro p h
    rcases finalizeIfId_cases tid p with he | ⟨_, he⟩ <;> rw [he] <;> exact h
  · intro p h
    rcases finalizeIfId_cases tid p with he | ⟨hg, he⟩
    · rw [he] at h
      exact Or.inr h
    · rw [he] at h
      simp at h
  · intro p h
    rcases finalizeIfId_cases tid p with he | ⟨hg, he⟩
    · exact he
    · rcases h with h | h <;> rw [h] at hg <;> simp at hg
  · intro p h
    rcases finalizeIfId_cases tid p with he | ⟨hg, he⟩
    · exact he
    · rw [h] at hg
      simp at hg
  · intro p h
    rcases finalizeIfId_cases tid p with he | ⟨_, he⟩ <;> rw [he] at h <;> exact Or.inl h

theorem gateF_appendFragment (tid frag : String) : GateF (appendFragment tid frag) := by
  refine ⟨?_, ?_, ?_, ?_, ?_, ?_⟩
  · intro p
    rcases appendFragment_cases tid frag p with he | ⟨_, he⟩ <;> rw [he] <;>
      exact ⟨rfl, rfl⟩
  · intro p h
    rcases appendFragment_cases tid frag p with he | ⟨_, he⟩ <;> rw [he] <;> exact h
  · intro p h
    rcases appendFragment_cases tid frag p with he | ⟨hg, he⟩
    · rw [he] at h
      exact Or.inr h
    · by_cases hf : frag = ""
      · rw [he, if_pos hf] at h
        exact Or.inr h
      · rw [he, if_neg hf] at h
        simp at h
  · intro p h
    rcases appendFragment_cases tid frag p with he | ⟨hg, he⟩
    · exact he
    · rcases h with h | h <;> rw [h] at hg <;> simp at hg
  · intro p h
    rcases appendFragment_cases tid frag p with he | ⟨hg, he⟩
    · exact he
    · rw [h] at hg
      simp at hg
  · intro p h
    rcases appendFragment_cases tid frag p with he | ⟨_, he⟩ <;> rw [he] at h <;>
      exact Or.inl h

theorem gateF_inputAvailableF (tid : String) (v : JsonValue) :
    GateF (inputAvailableF tid v) := by
  refine ⟨?_, ?_, ?_, ?_, ?_, ?_⟩
  · intro p
    rcases inputAvailableF_cases tid v p with he | ⟨_, he⟩ <;> rw [he] <;>
      exact ⟨rfl, rfl⟩
  · intro p h
    rcases inputAvailableF_cases tid v p with he | ⟨_, he⟩ <;> rw [he] <;> exact h
  · intro p h
    rcases inputAvailableF_cases tid v p with he | ⟨hg, he⟩
    · rw [he] at h
      exact Or.inr h
    · rw [he] at h
      simp at h
  · intro p h
    rcases inputAvailableF_cases tid v p with he | ⟨hg, he⟩
    · exact he
    · rcases h with h | h <;> rw [h] at hg <;> simp at hg
  · intro p h
    rcases inputAvailableF_cases tid v p with he | ⟨hg, he⟩
    · exact he
    · rw [h] at hg
      simp at hg
  · intro p h
    rcases inputAvailableF_cases tid v p with he | ⟨_, he⟩ <;> rw [he] at h <;>
      exact Or.inl h

theorem gateF_toolResultF (tid content : String) : GateF (toolResultF tid content) := by
  refine ⟨?_, ?_, ?_, ?_, ?_, ?_⟩
  · intro p
    rcases toolResultF_cases tid content p with he | ⟨_, he⟩ <;> rw [he] <;>
      exact ⟨rfl, rfl⟩
  · intro p h
    rcases toolResultF_cases tid content p with he | ⟨_, he⟩ <;> rw [he] <;> exact h
  · intro p h
    rcases toolResultF_cases tid content p with he | ⟨hg, he⟩
    · rw [he] at h
      exact Or.inr h
    · rw [he] at h
      simp at h
  · intro p h
    rcases toolResultF_cases tid content p with he | ⟨hg, he⟩
    · exact he
    · rcases h with h | h <;> rw [h] at hg <;> simp at hg
  · intro p h
    rcases toolResultF_cases tid content p with he | ⟨hg, he⟩
    · exact he
    · rw [h] at hg
      simp at hg
  · intro p h
    rcases toolResultF_cases tid content p with he | ⟨_, he⟩ <;> rw [he] at h <;>
      exact Or.inl h

theorem gateF_addToolResultF (tid out : String) (err : Option String) :
    GateF (addToolResultF tid out err) := by
  refine ⟨?_, ?_, ?_, ?_, ?_, ?_⟩
  · intro p
    rcases addToolResultF_cases tid out err p with he | ⟨_, he | ⟨e, he⟩⟩ <;>
      rw [he] <;> exact ⟨rfl, rfl⟩
  · intro p h
    rcases addToolResultF_cases tid out err p with he | ⟨_, he | ⟨e, he⟩⟩ <;>
      rw [he] <;> exact h
  · intro p h
    rcases addToolResultF_cases tid out err p with he | ⟨hg, he | ⟨e, he⟩⟩
    · rw [he] at h
      exact Or.inr h
    · rw [he] at h
      simp at h
    · rw [he] at h
      simp at h
  · intro p h
    rcases addToolResultF_cases tid out err p with he | ⟨hg, _⟩
    · exact he
    · rcases h with h | h <;> rw [h] at hg <;> simp at hg
  · intro p h
    rcases addToolResultF_cases tid out err p with he | ⟨hg, _⟩
    · exact he
    · rw [h] at hg
      simp at hg
  · intro p h
    rcases addToolResultF_cases tid out err p with he | ⟨_, he | ⟨e, he⟩⟩ <;>
      rw [he] at h <;> exact Or.inl h

theorem gateF_approvalRequestF (tid : String) (v : JsonValue) (aid : String) :
    GateF (approvalRequestF tid v aid) := by
  refine ⟨?_, ?_, ?_, ?_, ?_, ?_⟩
  · intro p
    rcases approvalRequestF_cases tid v aid p with he | ⟨_, _, he⟩ <;> rw [he] <;>
      exact ⟨rfl, rfl⟩
  · intro p h
    rcases approvalRequestF_cases tid v aid p with he | ⟨hap, _, he⟩
    · rw [he]
      exact h
    · obtain ⟨a2, ha⟩ := h
      rw [hap] at ha
      simp at ha
  · intro p h
    rcases approvalRequestF_cases tid v aid p with he | ⟨_, _, he⟩
    · rw [he] at h
      exact Or.inr h
    · rw [he] at h
      simp at h
  · intro p h
    rcases approvalRequestF_cases tid v aid p with he | ⟨_, hg, he⟩
    · exact he
    · rcases h with h | h <;> rw [h] at hg <;> simp at hg
  · intro p h
    rcases approvalRequestF_cases tid v aid p with he | ⟨_, hg, he⟩
    · exact he
    · rw [h] at hg
      simp at hg
  · intro p h
    rcases approvalRequestF_cases tid v aid p with he | ⟨_, _, he⟩
    · rw [he] at h
      exact Or.inl h
    · rw [he] at h
      obtain ⟨a2, ha⟩ := h
      simp at ha

theorem gateF_approvalResponseF (aid : String) (b : Bool) :
    GateF (approvalResponseF aid b) := by
  refine ⟨?_, ?_, ?_, ?_, ?_, ?_⟩
  · intro p
    rcases approvalResponseF_cases aid b p with he | ⟨a, h1, h2, h3, h4, he⟩ <;>
      rw [he] <;> exact ⟨rfl, rfl⟩
  · intro p h
    rcases approvalResponseF_cases aid b p with he | ⟨a, h1, h2, h3, h4, he⟩
    · rw [he]
      exact h
    · obtain ⟨a2, ha⟩ := h
      rw [h1] at ha
      injection ha with ha2
      rw [ha2] at h4
      simp at h4
  · intro p h
    rcases approvalResponseF_cases aid b p with he | ⟨a, h1, h2, h3, h4, he⟩
    · rw [he] at h
      exact Or.inr h
    · cases b with
      | false =>
        rw [he] at h
        simp at h
      | true =>
        exact Or.inl (by rw [he]; exact ⟨aid, rfl⟩)
  · intro p h
    rcases approvalResponseF_cases aid b p with he | ⟨a, h1, h2, h3, h4, he⟩
    · exact he
    · rcases h with h | h <;> rw [h] at h2 <;> simp at h2
  · intro p h
    rcases approvalResponseF_cases aid b p with he | ⟨a, h1, h2, h3, h4, he⟩
    · exact he
    · rw [h] at h2
      simp at h2
  · intro p h
    rcases approvalResponseF_cases aid b p with he | ⟨a, h1, h2, h3, h4, he⟩
    · rw [he] at h
      exact Or.inl h
    · cases b with
      | true =>
        obtain ⟨a2, ha⟩ := h
        rw [he] at ha
        simp at ha
      | false =>
        exact Or.inr ⟨by rw [he]; rfl, h2⟩

/-! ## Approval gating: state-level preservation -/

theorem hasPart_false (msgs : List UIMessage) (tid : String)
    (h : hasPart msgs tid = false) : ∀ p ∈ partsOf msgs, p.id ≠ tid := by
  intro p hp heq
  have h2 : hasPart msgs tid = true := by
    unfold hasPart
    rw [List.any_eq_true]
    exact ⟨p, hp, by simp [heq]⟩
  rw [h] at h2
  simp at h2

theorem newToolPart_state (tid name frag : String) :
    (newToolPart tid name frag).state = .awaitingInput ∨
      (newToolPart tid name frag).state = .inputStreaming := by
  unfold newToolPart
  show (if frag = "" then TCState.awaitingInput else TCState.inputStreaming) = _ ∨
    (if frag = "" then TCState.awaitingInput else TCState.inputStreaming) = _
  split
  · exact Or.inl rfl
  · exact Or.inr rfl

theorem gateInv_pushNew (tools : List SPTool) (S : ProcState) (events : List Event)
    (np : ToolCallPart)
    (h : GateInv tools S.messages events)
    (hfresh : hasPart S.messages np.id = false)
    (hs1 : np.state ≠ .executing) (hs2 : np.state ≠ .outputAvailable)
    (hs3 : np.state ≠ .outputError) (hd : ¬ deniedOf np) :
    GateInv tools (pushPartToCurrent S (.toolCall np)).messages events := by
  unfold pushPartToCurrent
  cases hcur : S.currentIdx with
  | none => exact h
  | some k =>
    refine gateInv_insert tools S.messages _ events np
      (if k < S.messages.length then [np] else []) h
      (partsOf_updateMessageAt_push np k S.messages) ?_
      (hasPart_false _ _ hfresh) hs1 hs2 hs3 hd
    rcases Nat.lt_or_ge k S.messages.length with hk | hk
    · rw [if_pos hk]
      exact Or.inr rfl
    · rw [if_neg (Nat.not_lt.mpr hk)]
      exact Or.inl rfl

theorem gateInv_content (tools : List SPTool) (st : ProcState)
    (events : List Event) (delta : String)
    (h : GateInv tools st.messages events) :
    GateInv tools (processChunkOp st (.content delta)).messages events := by
  simp only [processChunkOp]
  have h1 : GateInv tools (ensureAssistant st).messages events :=
    gateInv_of_eq _ _ _ _ (partsOf_ensureAssistant st) h
  split
  · rename_i k hk
    split
    · rename_i act hact
      exact gateInv_of_eq _ _ _ _
        (partsOf_updateMessageAt_inv _ (filterMap_pushText delta) k _)
        (gateInv_map _ _ _ _ (gateF_finalizeIfId act) h1)
    · exact gateInv_of_eq _ _ _ _
        (partsOf_updateMessageAt_inv _ (filterMap_pushText delta) k _) h1
  · split
    · rename_i act hact
      exact gateInv_map _ _ _ _ (gateF_finalizeIfId act) h1
    · exact h1

theorem gateInv_thinking (tools : List SPTool) (st : ProcState)
    (events : List Event) (delta : String)
    (h : GateInv tools st.messages events) :
    GateInv tools (processChunkOp st (.thinking delta)).messages events := by
  simp only [processChunkOp]
  have h1 : GateInv tools (ensureAssistant st).messages events :=
    gateInv_of_eq _ _ _ _ (partsOf_ensureAssistant st) h
  split
  · rename_i k hk
    split
    · rename_i act hact
      exact gateInv_of_eq _ _ _ _
        (partsOf_updateMessageAt_inv _ (filterMap_pushThinking delta) k _)
        (gateInv_map _ _ _ _ (gateF_finalizeIfId act) h1)
    · exact gateInv_of_eq _ _ _ _
        (partsOf_updateMessageAt_inv _ (filterMap_pushThinking delta) k _) h1
  · split
    · rename_i act hact
      exact gateInv_map _ _ _ _ (gateF_finalizeIfId act) h1
    · exact h1

theorem gateInv_toolCallChunk (tools : List SPTool) (st : ProcState)
    (events : List Event) (tid name frag : String) (idx : Nat)
    (h : GateInv tools st.messages events) :
    GateInv tools (processChunkOp st (.toolCall tid name frag idx)).messages
      events := by
  simp only [processChunkOp]
  have h1 : GateInv tools (ensureAssistant st).messages events :=
    gateInv_of_eq _ _ _ _ (partsOf_ensureAssistant st) h
  have hnp1 : (newToolPart tid name frag).state ≠ TCState.executing := by
    rcases newToolPart_state tid name frag with hs | hs <;> rw [hs] <;> simp
  have hnp2 : (newToolPart tid name frag).state ≠ TCState.outputAvailable := by
    rcases newToolPart_state tid name frag with hs | hs <;> rw [hs] <;> simp
  have hnp3 : (newToolPart tid name frag).state ≠ TCState.outputError := by
    rcases newToolPart_state tid name frag with hs | hs <;> rw [hs] <;> simp
  have hnp4 : ¬ deniedOf (newToolPart tid name frag) := by
    intro hd
    obtain ⟨a, ha⟩ := hd
    simp [newToolPart] at ha
  split
  · -- a part with this id exists: the fragment is appended in place
    refine gateInv_map tools _ events _ (gateF_appendFragment tid frag) ?_
    split
    · rename_i act hact
      split
      · exact h1
      · exact gateInv_map _ _ _ _ (gateF_finalizeIfId act) h1
    · exact h1
  · -- fresh id: a new tool-call part is appended
    rename_i hhp
    refine gateInv_pushNew tools _ events (newToolPart tid name frag) ?_
      (by simpa using hhp) hnp1 hnp2 hnp3 hnp4
    split
    · rename_i act hact
      split
      · exact h1
      · exact gateInv_map _ _ _ _ (gateF_finalizeIfId act) h1
    · exact h1

theorem gateInv_toolInputAvailable (tools : List SPTool) (st : ProcState)
    (events : List Event) (tid name : String) (v : JsonValue)
    (h : GateInv tools st.messages events) :
    GateInv tools
      (processChunkOp st (.toolInputAvailable tid name v)).messages events := by
  simp only [processChunkOp]
  have h1 : GateInv tools (ensureAssistant st).messages events :=
    gateInv_of_eq _ _ _ _ (partsOf_ensureAssistant st) h
  split
  · exact gateInv_map tools _ events _ (gateF_inputAvailableF tid v) h1
  · rename_i hhp
    refine gateInv_pushNew tools _ events
      ⟨tid, name, "", some v, .inputComplete, none, none, none⟩ h1
      (by simpa using hhp) (by simp) (by simp) (by simp) ?_
    intro hd
    obtain ⟨a, ha⟩ := hd
    simp at ha

theorem gateInv_approvalRequested (tools : List SPTool) (st : ProcState)
    (events : List Event) (tid name : String) (v : JsonValue) (aid : String)
    (h : GateInv tools st.messages events) :
    GateInv tools
      (processChunkOp st (.approvalRequested tid name v aid)).messages events := by
  simp only [processChunkOp]
  have h1 : GateInv tools (ensureAssistant st).messages events :=
    gateInv_of_eq _ _ _ _ (partsOf_ensureAssistant st) h
  split
  · exact gateInv_map tools _ events _ (gateF_approvalRequestF tid v aid) h1
  · rename_i hhp
    refine gateInv_pushNew tools _ events
      ⟨tid, name, "", some v, .approvalRequested, some ⟨aid, none⟩, none, none⟩ h1
      (by simpa using hhp) (by simp) (by simp) (by simp) ?_
    intro hd
    obtain ⟨a, ha⟩ := hd
    simp at ha

theorem gateInv_toolResultChunk (tools : List SPTool) (st : ProcState)
    (events : List Event) (tid content : String)
    (h : GateInv tools st.messages events) :
    GateInv tools (processChunkOp st (.toolResult tid content)).messages
      events := by
  simp only [processChunkOp]
  have h2 : GateInv tools
      (mapToolParts (toolResultF tid content) st.messages) events :=
    gateInv_map _ _ _ _ (gateF_toolResultF tid content) h
  split
  · exact gateInv_of_eq _ _ _ _ (partsOf_pushResultPart _ _) h2
  · exact h2

theorem executableP_spec (tools : List SPTool) (tid : String) (p : ToolCallPart)
    (h : executableP tools tid p = true) :
    p.id = tid ∧ (p.state = .executing ∨
      (p.state = .inputComplete ∧ gatedTool tools p.name = false)) := by
  unfold executableP at h
  exact of_decide_eq_true h

theorem executableP_false_of (tools : List SPTool) (tid : String)
    (p : ToolCallPart)
    (hp : ¬(p.id = tid ∧ (p.state = .executing ∨
      (p.state = .inputComplete ∧ gatedTool tools p.name = false)))) :
    executableP tools tid p = false := by
  unfold executableP
  exact decide_eq_false hp

theorem gateInv_executeStep (tools : List SPTool) (st : ProcState)
    (events : List Event) (tid : String) (result : Except String String)
    (h : GateInv tools st.messages events)
    (hany : (partsOf st.messages).any (executableP tools tid) = true) :
    GateInv tools (mapToolParts (executeStepF tools tid result) st.messages)
      (events ++ [.executorInvoked tid, .toolResultChunk tid]) := by
  obtain ⟨q, hq, hqx⟩ := List.any_eq_true.mp hany
  obtain ⟨hqid, hqst⟩ := executableP_spec tools tid q hqx
  have hparts := partsOf_mapToolParts (executeStepF tools tid result) st.messages
  refine ⟨?_, ?_, ?_, ?_, ?_⟩
  · -- an executing gated part carries an approval
    intro p2 hm hg hs
    rw [hparts] at hm
    obtain ⟨p, hp, rfl⟩ := List.mem_map.mp hm
    by_cases hex : executableP tools tid p = true
    · rcases executeStepF_of_exec tools tid result p hex with h5 | h5 <;>
        rw [h5] at hs <;> simp at hs
    · have h5 := executeStepF_of_not_exec tools tid result p
        (by simpa using hex)
      rw [h5] at hs hg ⊢
      exact h.gatedExecuting p hp hg hs
  · -- an invoked gated part carries an approval
    intro p2 hm hg hev
    rw [hparts] at hm
    obtain ⟨p, hp, rfl⟩ := List.mem_map.mp hm
    obtain ⟨hid5, hname5, happ5⟩ := executeStepF_pres tools tid result p
    rw [hid5] at hev
    rw [hname5] at hg
    rcases List.mem_append.mp hev with hev | hev
    · obtain ⟨aid, ha⟩ := h.gatedEvents p hp hg hev
      exact ⟨aid, by rw [happ5, ha]⟩
    · have hpid : p.id = tid := by
        simp at hev
        exact hev
      have hqp : q = p :=
        List.inj_on_of_nodup_map h.nodup hq hp (by rw [hqid, hpid])
      rcases (executableP_spec tools tid p (hqp ▸ hqx)).2 with hex | ⟨_, hng⟩
      · obtain ⟨aid, ha⟩ := h.gatedExecuting p hp hg hex
        exact ⟨aid, by rw [happ5, ha]⟩
      · rw [hg] at hng
        simp at hng
  · -- every event id points at a finished part
    intro tid2 ht
    have key : (Event.executorInvoked tid2 ∈ events ∨
        Event.toolResultChunk tid2 ∈ events) ∨ tid2 = tid := by
      rcases ht with ht | ht <;> rcases List.mem_append.mp ht with ht2 | ht2
      · exact Or.inl (Or.inl ht2)
      · simp at ht2
        exact Or.inr ht2
      · exact Or.inl (Or.inr ht2)
      · simp at ht2
        exact Or.inr ht2
    rcases key with hold | heq
    · obtain ⟨p, hp, hpid, hpst⟩ := h.eventsHavePart tid2 hold
      have hex : executableP tools tid p = false := by
        refine executableP_false_of tools tid p ?_
        rintro ⟨-, hc | ⟨hc, -⟩⟩ <;>
          rcases hpst with hs | hs <;> rw [hs] at hc <;> simp at hc
      have hfp := executeStepF_of_not_exec tools tid result p hex
      refine ⟨p, ?_, hpid, hpst⟩
      rw [hparts]
      exact List.mem_map.mpr ⟨p, hp, hfp⟩
    · rw [heq]
      refine ⟨executeStepF tools tid result q, ?_, ?_, ?_⟩
      · rw [hparts]
        exact List.mem_map.mpr ⟨q, hq, rfl⟩
      · rw [(executeStepF_pres tools tid result q).1, hqid]
      · exact executeStepF_of_exec tools tid result q hqx
  · -- a denied part stays cancelled and has no events
    intro p2 hm hdp
    rw [hparts] at hm
    obtain ⟨p, hp, rfl⟩ := List.mem_map.mp hm
    obtain ⟨hid5, hname5, happ5⟩ := executeStepF_pres tools tid result p
    have hdpp : deniedOf p := by
      obtain ⟨aid, ha⟩ := hdp
      rw [happ5] at ha
      exact ⟨aid, ha⟩
    obtain ⟨hcan, hnev1, hnev2⟩ := h.denied p hp hdpp
    have hpid_ne : p.id ≠ tid := by
      intro hpe
      have hqp : q = p :=
        List.inj_on_of_nodup_map h.nodup hq hp (by rw [hqid, hpe])
      rcases (executableP_spec tools tid p (hqp ▸ hqx)).2 with hc | ⟨hc, -⟩ <;>
        rw [hcan] at hc <;> simp at hc
    have hfp := executeStepF_of_not_exec tools tid result p
      (executableP_false_of tools tid p (fun hc => hpid_ne hc.1))
    rw [hfp]
    refine ⟨hcan, ?_, ?_⟩
    · intro hev
      rcases List.mem_append.mp hev with hev | hev
      · exact hnev1 hev
      · simp at hev
        exact hpid_ne hev
    · intro hev
      rcases List.mem_append.mp hev with hev | hev
      · exact hnev2 hev
      · simp at hev
        exact hpid_ne hev
  · rw [hparts, List.map_map]
    have h5 : ((fun p => p.id) ∘ executeStepF tools tid result) =
        (fun (p : ToolCallPart) => p.id) :=
      funext (fun p => (executeStepF_pres tools tid result p).1)
    rw [h5]
    exact h.nodup

theorem gateInv_step (tools : List SPTool) (st : ProcState)
    (events : List Event) (op : Op) (h : GateInv tools st.messages events) :
    GateInv tools (stepOp tools st op).fst.messages
      (events ++ (stepOp tools st op).snd) := by
  cases op with
  | processChunk c =>
    show GateInv tools (processChunkOp st c).messages (events ++ [])
    rw [List.append_nil]
    cases c with
    | content delta => exact gateInv_content tools st events delta h
    | thinking delta => exact gateInv_thinking tools st events delta h
    | toolCall tid name frag idx =>
      exact gateInv_toolCallChunk tools st events tid name frag idx h
    | toolInputAvailable tid name v =>
      exact gateInv_toolInputAvailable tools st events tid name v h
    | approvalRequested tid name v aid =>
      exact gateInv_approvalRequested tools st events tid name v aid h
    | toolResult tid content =>
      exact gateInv_toolResultChunk tools st events tid content h
    | done => exact gateInv_map tools _ events _ gateF_finalizePart h
    | error msg => exact gateInv_map tools _ events _ gateF_finalizePart h
  | addUserMessage content =>
    show GateInv tools
      (st.messages ++ [⟨"msg-" ++ toString st.msgCounter, .user,
        [.text content], 0⟩]) (events ++ [])
    rw [List.append_nil]
    refine gateInv_of_eq _ _ _ _ ?_ h
    rw [partsOf_append]
    simp [partsOf, partsOfMsg, toolPart?]
  | startAssistantMessage =>
    show GateInv tools
      (st.messages ++ [⟨"msg-" ++ toString st.msgCounter, .assistant, [], 0⟩])
      (events ++ [])
    rw [List.append_nil]
    refine gateInv_of_eq _ _ _ _ ?_ h
    rw [partsOf_append]
    simp [partsOf, partsOfMsg]
  | addToolResult tid out err =>
    simp only [stepOp]
    split
    · show GateInv tools
        (pushPartToCurrent
          { st with messages := mapToolParts (addToolResultF tid out err) st.messages }
          (.toolResult ⟨tid, out, err.isSome⟩)).messages (events ++ [])
      rw [List.append_nil]
      exact gateInv_of_eq _ _ _ _ (partsOf_pushResultPart _ _)
        (gateInv_map tools _ events _ (gateF_addToolResultF tid out err) h)
    · show GateInv tools st.messages (events ++ [])
      rw [List.append_nil]
      exact h
  | addToolApprovalResponse aid b =>
    show GateInv tools
      (mapToolParts (approvalResponseF aid b) st.messages) (events ++ [])
    rw [List.append_nil]
    exact gateInv_map tools _ events _ (gateF_approvalResponseF aid b) h
  | executeStep tid result =>
    simp only [stepOp]
    split
    · rename_i hany
      exact gateInv_executeStep tools st events tid result h hany
    · show GateInv tools st.messages (events ++ [])
      rw [List.append_nil]
      exact h
  | finalizeStream =>
    show GateInv tools
      (mapToolParts finalizePart st.messages) (events ++ [])
    rw [List.append_nil]
    exact gateInv_map tools _ events _ gateF_finalizePart h

theorem gateInv_runOpsFrom (tools : List SPTool) :
    ∀ (ops : List Op) (st : ProcState) (events : List Event),
      GateInv tools st.messages events →
      GateInv tools (runOpsFrom tools st ops).fst.messages
        (events ++ (runOpsFrom tools st ops).snd) := by
  intro ops
  induction ops with
  | nil =>
    intro st events h
    show GateInv tools st.messages (events ++ [])
    rw [List.append_nil]
    exact h
  | cons op rest ih =>
    intro st events h
    have h2 := ih (stepOp tools st op).fst (events ++ (stepOp tools st op).snd)
      (gateInv_step tools st events op h)
    show GateInv tools
      (runOpsFrom tools (stepOp tools st op).fst rest).fst.messages
      (events ++ ((stepOp tools st op).snd ++
        (runOpsFrom tools (stepOp tools st op).fst rest).snd))
    rw [← List.append_assoc]
    exact h2

theorem gateInv_init (tools : List SPTool) :
    GateInv tools initState.messages [] := by
  refine ⟨?_, ?_, ?_, ?_, ?_⟩
  · intro p hp
    simp [initState, partsOf] at hp
  · intro p hp
    simp [initState, partsOf] at hp
  · intro tid ht
    rcases ht with ht | ht <;> simp at ht
  · intro p hp
    simp [initState, partsOf] at hp
  · simp [initState, partsOf]

theorem gateInv_runOps (tools : List SPTool) (ops : List Op) :
    GateInv tools (runOps tools ops).fst.messages (runOps tools ops).snd := by
  have h := gateInv_runOpsFrom tools ops initState [] (gateInv_init tools)
  rw [List.nil_append] at h
  exact h

/-- C2: approval gating on the StreamProcessor. For every tool list and
every sequence of public operations against a fresh processor: (1) a
tool-call part whose tool declares `needsApproval` and whose
executor-invocation event occurs in the trace has an `approved = true`
decision recorded on its ApprovalRequest — and since this holds for every
operation sequence, in particular for every prefix of a run, the executor
is never invoked before the approval is recorded via
`addToolApprovalResponse`; (2) a part with a recorded denial
(`approved = false`) is terminally `cancelled`, its executor is never
invoked, and no `tool_result` chunk is ever produced for that call. -/
theorem approval_gating (tools : List SPTool) (ops : List Op) :
    (∀ p ∈ partsOf (runOps tools ops).fst.messages,
        gatedTool tools p.name = true →
        Event.executorInvoked p.id ∈ (runOps tools ops).snd →
        approvedTrue p) ∧
    (∀ p ∈ partsOf (runOps tools ops).fst.messages, deniedOf p →
        p.state = .cancelled ∧
        Event.executorInvoked p.id ∉ (runOps tools ops).snd ∧
        Event.toolResultChunk p.id ∉ (runOps tools ops).snd) :=
  ⟨(gateInv_runOps tools ops).gatedEvents, (gateInv_runOps tools ops).denied⟩

theorem approval_gating_witness :
    (⟨"c1", "send", "", some JsonValue.jnull, TCState.cancelled,
        some ⟨"a1", some false⟩, none, none⟩ : ToolCallPart).state =
      TCState.cancelled ∧
    Event.executorInvoked "c1" ∉
      (runOps [⟨"send", true⟩]
        [Op.processChunk (.approvalRequested "c1" "send" JsonValue.jnull "a1"),
         Op.addToolApprovalResponse "a1" false,
         Op.executeStep "c1" (.ok "out")]).snd ∧
    Event.toolResultChunk "c1" ∉
      (runOps [⟨"send", true⟩]
        [Op.processChunk (.approvalRequested "c1" "send" JsonValue.jnull "a1"),
         Op.addToolApprovalResponse "a1" false,
         Op.executeStep "c1" (.ok "out")]).snd :=
  (approval_gating [⟨"send", true⟩]
      [Op.processChunk (.approvalRequested "c1" "send" JsonValue.jnull "a1"),
       Op.addToolApprovalResponse "a1" false,
       Op.executeStep "c1" (.ok "out")]).2
    ⟨"c1", "send", "", some JsonValue.jnull, TCState.cancelled,
      some ⟨"a1", some false⟩, none, none⟩
    (by exact List.Mem.head _)
    ⟨"a1", rfl⟩

end TanstackAI
